import Mathlib

/-!
The gengine rule builder, `builder/rule_builder.go`.

A shallow embedding of `RuleBuilder.BuildRuleFromString` and
`RuleBuilder.BuildRuleWithIncremental`, followed by the properties of the
knowledge context they publish.

Conventions of the embedding.

* A Go `map[string]V` is an association list `GoMap V`; the order of the list
  is the order in which `range` enumerates the map in the run considered, so
  a statement about every such list with distinct keys is a statement about
  every map and every enumeration order.
* A Go slice is a `Slice`: the written cells of its backing array, its length
  and its capacity.  `goAppend` writes in place when the capacity suffices and
  reports so, which is how the aliasing between the outer `newSortRules` and
  the shadowed inner `newSortRules` of the incremental update is tracked.
* A run-time panic (index or slice bound out of range) is the outcome
  `Ret.panic`.
* `buildLock` only serialises callers and has no sequential content.
-/

namespace Gengine

/-! ## Data model -/

/-- The pointee of a `*base.RuleEntity`: its name, its salience, the opaque
executable body, and the data context bound by `Initialize` (if any). -/
structure RuleEntity where
  RuleName : String
  Salience : Int
  body : Nat
  dataCtx : Option Nat
deriving DecidableEq, Repr

/-- Modelled from the spec: `RuleEntity.Initialize` (package `base`, absent from
the sources) binds the entity to the environment object and touches neither
the name nor the salience. -/
def Initialize (v : RuleEntity) (dc : Nat) : RuleEntity :=
  { v with dataCtx := some dc }

/-- A Go `map[string]V` together with the order `range` enumerates it in. -/
abbrev GoMap (V : Type) := List (String × V)

namespace GoMap

/-- The Go expression `v, ok := m[k]`. -/
def lookup {V : Type} : GoMap V → String → Option V
  | [], _ => none
  | (k', v) :: t, k => if k' = k then some v else lookup t k

/-- The Go statement `m[k] = v`. -/
def store {V : Type} : GoMap V → String → V → GoMap V
  | [], k, v => [(k, v)]
  | (k', v') :: t, k, v => if k' = k then (k, v) :: t else (k', v') :: store t k v

/-- The key set of the map, in enumeration order. -/
def keys {V : Type} (m : GoMap V) : List String := m.map Prod.fst

end GoMap

/-- The three co-located structures of `base.KnowledgeContext`.  `SortRules`
holds the elements of the published slice. -/
structure KnowledgeContext where
  RuleEntities : GoMap RuleEntity
  SortRules : List RuleEntity
  SortRulesIndexMap : GoMap Nat
deriving DecidableEq, Repr

/-- Modelled from the spec: `base.NewKnowledgeContext` (absent from the sources)
returns a context with an empty registry, an empty ordering and an empty
index. -/
def NewKnowledgeContext : KnowledgeContext :=
  { RuleEntities := [], SortRules := [], SortRulesIndexMap := [] }

/-- The builder: the published context and the opaque data context. -/
structure RuleBuilder where
  Kc : KnowledgeContext
  Dc : Nat
deriving DecidableEq, Repr

/-- `NewRuleBuilder` (lines 23-29). -/
def NewRuleBuilder (dc : Nat) : RuleBuilder :=
  { Kc := NewKnowledgeContext, Dc := dc }

/-- What the front end leaves behind once the tree walk of lines 37-47 (89-101)
is over: the parsed entities in `kc.RuleEntities`, the grammar errors of the
error listener and the semantic errors of the parser listener. -/
structure ParseResult where
  RuleEntities : GoMap RuleEntity
  GrammarErrors : List String
  ParseErrors : List String
deriving DecidableEq, Repr

/-- The value returned by a build: `nil`, an error carrying a message, or a
run-time panic. -/
inductive Ret where
  | nil
  | error (msg : String)
  | panic
deriving DecidableEq, Repr

/-- The rendering `fmt.Sprintf("%+v", errs)` of a slice of messages: the
messages separated by one blank, between square brackets. -/
def render (errs : List String) : String :=
  "[" ++ " ".intercalate errs ++ "]"

/-- The functions this file calls and whose code is outside it:
`tool.BinarySearch`, and the capacity the Go run time chooses when `append`
has to reallocate (old capacity, needed length). -/
structure Extern where
  BinarySearch : List RuleEntity → Int → Int × Int
  growslice : Nat → Nat → Nat

/-! ## Slices -/

/-- A Go slice starting at cell 0 of its backing array. -/
structure Slice where
  arr : List RuleEntity
  len : Nat
  cap : Nat
deriving DecidableEq, Repr

namespace Slice

/-- The elements a reader of the slice sees. -/
def toList (s : Slice) : List RuleEntity := s.arr.take s.len

/-- The `nil` slice. -/
def empty : Slice := { arr := [], len := 0, cap := 0 }

/-- A slice made by `make([]T, n)` and filled cell by cell from `l`
(lines 122-125). -/
def copyOf (l : List RuleEntity) : Slice :=
  { arr := l, len := l.length, cap := l.length }

end Slice

/-- The built-in `append(s, xs...)`: the resulting slice, and whether it was
written into the backing array of `s` (so that every slice on that array sees
the writes). -/
def goAppend (ext : Extern) (s : Slice) (xs : List RuleEntity) : Slice × Bool :=
  let n := s.len + xs.length
  if n ≤ s.cap then
    ({ arr := s.arr.take s.len ++ xs ++ s.arr.drop n, len := n, cap := s.cap }, true)
  else
    ({ arr := s.arr.take s.len ++ xs, len := n, cap := max n (ext.growslice s.cap n) }, false)

/-! ## Full rebuild -/

/-- The comparator of lines 67-69. -/
def less (a b : RuleEntity) : Prop := a.Salience > b.Salience

instance (a b : RuleEntity) : Decidable (less a b) := by
  unfold less; infer_instance

/-- The library routine `sort.SliceStable` with the comparator `less`: a stable
sort, here by insertion (an element goes before the first one that is not
strictly before it). -/
def SliceStable (l : List RuleEntity) : List RuleEntity :=
  l.insertionSort (fun a b => ¬ less b a)

/-- The loop `for k, v := range sortRules { indexMap[v.RuleName] = k }`,
started at position `k`. -/
def indexLoop : Nat → List RuleEntity → GoMap Nat → GoMap Nat
  | _, [], m => m
  | k, v :: t, m => indexLoop (k + 1) t (GoMap.store m v.RuleName k)

/-- `RuleBuilder.BuildRuleFromString` (lines 31-78), from the parse result on. -/
def BuildRuleFromString (ext : Extern) (builder : RuleBuilder) (pr : ParseResult) :
    RuleBuilder × Ret :=
  if pr.GrammarErrors.length > 0 then
    (builder, Ret.error (render pr.GrammarErrors))
  else if pr.ParseErrors.length > 0 then
    (builder, Ret.error (render pr.ParseErrors))
  else
    -- initial
    let ruleEntities : GoMap RuleEntity :=
      pr.RuleEntities.map (fun p => (p.1, Initialize p.2 builder.Dc))
    -- sort
    let appended : Slice :=
      ruleEntities.foldl (fun s p => (goAppend ext s [p.2]).1) Slice.empty
    let sortRules : List RuleEntity :=
      if appended.len > 1 then SliceStable appended.toList else appended.toList
    let indexMap := indexLoop 0 sortRules NewKnowledgeContext.SortRulesIndexMap
    ({ builder with
        Kc := { RuleEntities := ruleEntities, SortRules := sortRules,
                SortRulesIndexMap := indexMap } }, Ret.nil)

/-! ## Incremental update -/

/-- The state of the merge loop: the published context (whose index map the
loop overwrites), the working registry and the working ordering. -/
structure MergeState where
  Kc : KnowledgeContext
  newRuleEntities : GoMap RuleEntity
  newSortRules : Slice
deriving DecidableEq, Repr

/-- The position the code uses: `low` when `mid == 0`, otherwise `mid`. -/
def insertPos (r : Int × Int) : Int :=
  if r.2 = 0 then r.1 else r.2

/-- Lines 143-152 and 165-174: search the position and splice `v` in there.
`newRe` is a fresh slice, the second `append` writes behind `s[:p]`.  `none`
is the panic of `s[p:]` out of range. -/
def spliceIn (ext : Extern) (s : Slice) (v : RuleEntity) : Option (Slice × Bool) :=
  let p := insertPos (ext.BinarySearch s.toList v.Salience)
  if 0 ≤ p ∧ p ≤ (s.len : Int) then
    let newRe := v :: s.toList.drop p.toNat
    some (goAppend ext { s with len := p.toNat } newRe)
  else
    none

/-- The copy loop of lines 116-119. -/
def copyMap (m : GoMap RuleEntity) : GoMap RuleEntity :=
  m.foldl (fun acc p => GoMap.store acc p.1 p.2) []

/-- One iteration of the loop of lines 129-185, for the entry `k, v0` of the
parsed map.  `none` is a panic. -/
def mergeStep (ext : Extern) (dc : Nat) (st : MergeState) (k : String) (v0 : RuleEntity) :
    Option MergeState :=
  let v := Initialize v0 dc
  match GoMap.lookup st.newRuleEntities k with
  | some vm =>
    let index := (GoMap.lookup st.Kc.SortRulesIndexMap v.RuleName).getD 0
    if v.Salience = vm.Salience then
      -- replace
      if index < st.newSortRules.len then
        some { st with
          newSortRules := { st.newSortRules with arr := st.newSortRules.arr.set index v },
          newRuleEntities := GoMap.store st.newRuleEntities k v }
      else
        none
    else
      if index + 1 ≤ st.newSortRules.len then
        let outer := st.newSortRules
        -- the shadowed variable: `newSortRules := append(...)`
        let removed := goAppend ext { outer with len := index } (outer.toList.drop (index + 1))
        let outer1 : Slice := if removed.2 then { outer with arr := removed.1.arr } else outer
        match spliceIn ext removed.1 v with
        | none => none
        | some spliced =>
          let outer2 : Slice :=
            if removed.2 && spliced.2 then { outer1 with arr := spliced.1.arr } else outer1
          some { Kc := { st.Kc with SortRulesIndexMap := indexLoop 0 spliced.1.toList [] },
                 newRuleEntities := GoMap.store st.newRuleEntities k v,
                 newSortRules := outer2 }
      else
        none
  | none =>
    -- add update
    match spliceIn ext st.newSortRules v with
    | none => none
    | some spliced =>
      some { Kc := { st.Kc with SortRulesIndexMap := indexLoop 0 spliced.1.toList [] },
             newRuleEntities := GoMap.store st.newRuleEntities k v,
             newSortRules := spliced.1 }

/-- The loop of lines 129-185 over the parsed entries in enumeration order;
`Except.error` carries the state in which an iteration panicked. -/
def mergeLoop (ext : Extern) (dc : Nat) :
    MergeState → List (String × RuleEntity) → Except MergeState MergeState
  | st, [] => Except.ok st
  | st, (k, v) :: t =>
    match mergeStep ext dc st k v with
    | none => Except.error st
    | some st' => mergeLoop ext dc st' t

/-- `RuleBuilder.BuildRuleWithIncremental` (lines 84-191), from the parse result
on. -/
def BuildRuleWithIncremental (ext : Extern) (builder : RuleBuilder) (pr : ParseResult) :
    RuleBuilder × Ret :=
  if pr.GrammarErrors.length > 0 then
    (builder, Ret.error (render pr.GrammarErrors))
  else if pr.ParseErrors.length > 0 then
    (builder, Ret.error (render pr.ParseErrors))
  else if pr.RuleEntities.length = 0 then
    (builder, Ret.error "no rules need to update or add.")
  else
    let st0 : MergeState :=
      { Kc := builder.Kc,
        newRuleEntities := copyMap builder.Kc.RuleEntities,
        newSortRules := Slice.copyOf builder.Kc.SortRules }
    match mergeLoop ext builder.Dc st0 pr.RuleEntities with
    | Except.error st => ({ builder with Kc := st.Kc }, Ret.panic)
    | Except.ok st =>
      ({ builder with
          Kc := { RuleEntities := st.newRuleEntities,
                  SortRules := st.newSortRules.toList,
                  SortRulesIndexMap := st.Kc.SortRulesIndexMap } }, Ret.nil)

/-! ## A reference search, used to run the update on concrete inputs -/

/-- A linear search for the insertion point: the number of leading entries
whose salience is strictly greater than `s`, returned as both `low` and
`mid`. -/
def scanSearch (l : List RuleEntity) (s : Int) : Int × Int :=
  let p : Int := ((l.takeWhile (fun e => decide (e.Salience > s))).length : Nat)
  (p, p)

/-- The reference environment: `scanSearch`, and doubling on reallocation. -/
def refExtern : Extern :=
  { BinarySearch := scanSearch, growslice := fun c _ => 2 * c }

/-- A rule with the given name and salience, not yet initialised. -/
def mkRule (name : String) (salience : Int) (body : Nat) : RuleEntity :=
  { RuleName := name, Salience := salience, body := body, dataCtx := none }


/-! ## Auxiliary notions

`listStep` is the effect of `mergeStep` on what a reader sees of the working
state: the registry, the elements of the working ordering and the index.
`mergeStep_view` shows that the slice manipulations of `mergeStep`, the
shadowed variable included, produce exactly that. -/

/-- The written part of the backing array covers the slice, and the length
is within the capacity. -/
def Slice.WF (s : Slice) : Prop := s.len ≤ s.arr.length ∧ s.len ≤ s.cap

/-- The list `l` with `v` put at position `p`. -/
def insertAt (l : List RuleEntity) (p : Nat) (v : RuleEntity) : List RuleEntity :=
  l.take p ++ v :: l.drop p

/-- What a reader of the working state sees. -/
def MergeState.view (st : MergeState) : KnowledgeContext :=
  { RuleEntities := st.newRuleEntities,
    SortRules := st.newSortRules.toList,
    SortRulesIndexMap := st.Kc.SortRulesIndexMap }

/-- The merge of one parsed entry, on lists. -/
def listStep (ext : Extern) (dc : Nat) (kc : KnowledgeContext) (k : String) (v0 : RuleEntity) :
    Option KnowledgeContext :=
  let v := Initialize v0 dc
  match GoMap.lookup kc.RuleEntities k with
  | some vm =>
    let index := (GoMap.lookup kc.SortRulesIndexMap v.RuleName).getD 0
    if v.Salience = vm.Salience then
      if index < kc.SortRules.length then
        some { kc with SortRules := kc.SortRules.set index v,
                       RuleEntities := GoMap.store kc.RuleEntities k v }
      else none
    else
      if index + 1 ≤ kc.SortRules.length then
        let l := kc.SortRules.eraseIdx index
        let p := insertPos (ext.BinarySearch l v.Salience)
        if 0 ≤ p ∧ p ≤ (l.length : Int) then
          some { RuleEntities := GoMap.store kc.RuleEntities k v,
                 SortRules := insertAt l p.toNat v,
                 SortRulesIndexMap := indexLoop 0 (insertAt l p.toNat v) [] }
        else none
      else none
  | none =>
    let p := insertPos (ext.BinarySearch kc.SortRules v.Salience)
    if 0 ≤ p ∧ p ≤ (kc.SortRules.length : Int) then
      some { RuleEntities := GoMap.store kc.RuleEntities k v,
             SortRules := insertAt kc.SortRules p.toNat v,
             SortRulesIndexMap := indexLoop 0 (insertAt kc.SortRules p.toNat v) [] }
    else none

/-- The loop over the parsed entries, on lists. -/
def listLoop (ext : Extern) (dc : Nat) :
    KnowledgeContext → List (String × RuleEntity) → Option KnowledgeContext
  | kc, [] => some kc
  | kc, (k, v) :: t =>
    match listStep ext dc kc k v with
    | none => none
    | some kc' => listLoop ext dc kc' t


/-! ## The invariant of a knowledge context -/

/-- Sorted by non-increasing salience. -/
def SortedDesc (l : List RuleEntity) : Prop :=
  l.Pairwise (fun a b => b.Salience ≤ a.Salience)

instance (l : List RuleEntity) : Decidable (SortedDesc l) := by
  unfold SortedDesc; infer_instance

/-- The invariant of a knowledge context: the registry, the ordering and the
index have the same size; the ordering is sorted by non-increasing salience;
for every name `n` of the registry, `SortRules[SortRulesIndexMap[n]]` is
`RuleEntities[n]`. -/
def KcInv (kc : KnowledgeContext) : Prop :=
  kc.RuleEntities.length = kc.SortRules.length ∧
  kc.SortRules.length = kc.SortRulesIndexMap.length ∧
  SortedDesc kc.SortRules ∧
  ∀ p ∈ kc.RuleEntities,
    (GoMap.lookup kc.SortRulesIndexMap p.1).bind (fun i => kc.SortRules[i]?) = some p.2

instance (kc : KnowledgeContext) : Decidable (KcInv kc) := by
  unfold KcInv; infer_instance

/-- A name-keyed map of entities: the keys are distinct (it is a map) and every
entity is stored under its own `RuleName`. -/
def NameKeyed (m : GoMap RuleEntity) : Prop :=
  (GoMap.keys m).Nodup ∧ ∀ p ∈ m, p.2.RuleName = p.1

instance (m : GoMap RuleEntity) : Decidable (NameKeyed m) := by
  unfold NameKeyed; infer_instance

/-- The maps of a context are maps: the registry is name-keyed and the keys of
the index are distinct. -/
def KcWf (kc : KnowledgeContext) : Prop :=
  NameKeyed kc.RuleEntities ∧ (GoMap.keys kc.SortRulesIndexMap).Nodup

instance (kc : KnowledgeContext) : Decidable (KcWf kc) := by
  unfold KcWf; infer_instance

/-- The position `p` is a valid insertion point for salience `s` in `l`:
`0 ≤ p ≤ len`, every entry before `p` has salience `≥ s`, every entry from `p`
on has salience `≤ s`. -/
def IsInsertionPoint (l : List RuleEntity) (s : Int) (p : Int) : Prop :=
  0 ≤ p ∧ p ≤ (l.length : Int) ∧
  (∀ e ∈ l.take p.toNat, s ≤ e.Salience) ∧ (∀ e ∈ l.drop p.toNat, e.Salience ≤ s)

instance (l : List RuleEntity) (s p : Int) : Decidable (IsInsertionPoint l s p) := by
  unfold IsInsertionPoint; infer_instance

/-- The hypothesis on `tool.BinarySearch`: on a sorted sequence, the position
the code derives from its result is a valid insertion point. -/
def ValidSearch (bs : List RuleEntity → Int → Int × Int) : Prop :=
  ∀ l s, SortedDesc l → IsInsertionPoint l s (insertPos (bs l s))

/-- The facts the proofs carry through the merge loop: the names of the
ordering are distinct, the registry holds exactly the entities of the ordering
under their names, and the index holds exactly the positions of the names. -/
structure Good (kc : KnowledgeContext) : Prop where
  names : (kc.SortRules.map RuleEntity.RuleName).Nodup
  regKeys : (GoMap.keys kc.RuleEntities).Nodup
  reg : ∀ n e, GoMap.lookup kc.RuleEntities n = some e ↔ e ∈ kc.SortRules ∧ e.RuleName = n
  idxKeys : (GoMap.keys kc.SortRulesIndexMap).Nodup
  idx : ∀ n i, GoMap.lookup kc.SortRulesIndexMap n = some i ↔
    (kc.SortRules.map RuleEntity.RuleName)[i]? = some n

/-- The entities of a parse result once `Initialize` has bound them to the data
context `dc` (the pointers are the same, the pointees are initialised). -/
def initialized (dc : Nat) (m : GoMap RuleEntity) : GoMap RuleEntity :=
  m.map (fun p => (p.1, Initialize p.2 dc))

/-- The ordering a full rebuild computes from the enumeration `m` of the
initialised entities. -/
def fullOrdering (m : GoMap RuleEntity) : List RuleEntity :=
  if (m.map Prod.snd).length > 1 then SliceStable (m.map Prod.snd) else m.map Prod.snd

/-! ## Concrete inputs -/

/-- The parse result of the rules A (salience 10), B (5) and C (5). -/
def parseABC : ParseResult :=
  { RuleEntities := [("A", mkRule "A" 10 1), ("B", mkRule "B" 5 2), ("C", mkRule "C" 5 3)],
    GrammarErrors := [], ParseErrors := [] }

/-- The context of the ordering `[A(10), B(5), C(5)]`. -/
def kcABC : KnowledgeContext :=
  { RuleEntities := [("A", mkRule "A" 10 1), ("B", mkRule "B" 5 2), ("C", mkRule "C" 5 3)],
    SortRules := [mkRule "A" 10 1, mkRule "B" 5 2, mkRule "C" 5 3],
    SortRulesIndexMap := [("A", 0), ("B", 1), ("C", 2)] }

/-- A builder that has published `kcABC`. -/
def builderABC : RuleBuilder := { Kc := kcABC, Dc := 0 }

/-- The message `msg` contains the text `part`. -/
def Contains (msg part : String) : Prop := part.data <:+: msg.data

instance (msg part : String) : Decidable (Contains msg part) := by
  unfold Contains; infer_instance

/-- A parse result with one grammar error and one semantic error. -/
def parseBothErrors : ParseResult :=
  { RuleEntities := [("A", mkRule "A" 10 1)],
    GrammarErrors := ["unexpected token"], ParseErrors := ["missing then"] }

/-- The builder states that calls can reach: a new builder, and the state a
build leaves behind when it returns (with `nil` or with an error) on a
name-keyed parse result. -/
inductive Published (ext : Extern) : RuleBuilder → Prop where
  | new (dc : Nat) : Published ext (NewRuleBuilder dc)
  | full (b : RuleBuilder) (pr : ParseResult) :
      Published ext b → NameKeyed pr.RuleEntities →
      (BuildRuleFromString ext b pr).2 ≠ Ret.panic →
      Published ext (BuildRuleFromString ext b pr).1
  | incremental (b : RuleBuilder) (pr : ParseResult) :
      Published ext b → NameKeyed pr.RuleEntities →
      (BuildRuleWithIncremental ext b pr).2 ≠ Ret.panic →
      Published ext (BuildRuleWithIncremental ext b pr).1

/-! ## The merge as a sequence of steps -/

/-- The state in which the merge loop starts: the published context, the copy
of its registry and the copy of its ordering (lines 115-125). -/
def mergeStart (builder : RuleBuilder) : MergeState :=
  { Kc := builder.Kc,
    newRuleEntities := copyMap builder.Kc.RuleEntities,
    newSortRules := Slice.copyOf builder.Kc.SortRules }

/-- The context reachable through `builder.Kc` after each iteration of the
merge loop, in order; all of them are visible before the publish step of lines
187-188. -/
def visibleDuringMerge (ext : Extern) (dc : Nat) :
    MergeState → List (String × RuleEntity) → List KnowledgeContext
  | _, [] => []
  | st, (k, v) :: t =>
    match mergeStep ext dc st k v with
    | none => []
    | some st' => st'.Kc :: visibleDuringMerge ext dc st' t

/-- The position the code derives from the search lies within the slice, for
every sequence and salience. -/
def InRangeSearch (bs : List RuleEntity → Int → Int × Int) : Prop :=
  ∀ l s, 0 ≤ insertPos (bs l s) ∧ insertPos (bs l s) ≤ (l.length : Int)

/-- The entities of salience `s`, in the order of `l`. -/
def withSalience (s : Int) (l : List RuleEntity) : List RuleEntity :=
  l.filter (fun e => decide (e.Salience = s))

/-- The sequence `out` is the stable sort of `inp` by descending salience: a
permutation of `inp`, sorted by non-increasing salience, in which the entities
of equal salience keep the order they have in `inp`. -/
def IsStableSortDesc (inp out : List RuleEntity) : Prop :=
  out.Perm inp ∧ SortedDesc out ∧ ∀ s, withSalience s out = withSalience s inp

/-! ## Searches with different placements among equal saliences -/

/-- A linear search that passes the entries of salience `≥ s`: it places a rule
after every entry of equal salience. -/
def scanSearchAfter (l : List RuleEntity) (s : Int) : Int × Int :=
  let p : Int := ((l.takeWhile (fun e => decide (e.Salience ≥ s))).length : Nat)
  (p, p)

/-- A search that places before the entries of equal salience when `s` is even
and after them when `s` is odd. -/
def scanSearchMixed (l : List RuleEntity) (s : Int) : Int × Int :=
  if s % 2 = 0 then scanSearch l s else scanSearchAfter l s
/-! ## Go maps -/

namespace GoMap

theorem lookup_store {V : Type} (m : GoMap V) (k n : String) (v : V) :
    lookup (store m k v) n = if k = n then some v else lookup m n := by
  induction m with
  | nil => simp [store, lookup]
  | cons hd t ih =>
    obtain ⟨k', v'⟩ := hd
    by_cases h : k' = k
    · subst h
      by_cases h2 : k' = n <;> simp [store, lookup, h2]
    · by_cases h2 : k' = n
      · subst h2
        have : ¬ k = k' := fun e => h e.symm
        simp [store, lookup, h, this]
      · simp [store, lookup, h, h2, ih]

theorem lookup_eq_none_iff {V : Type} (m : GoMap V) (k : String) :
    lookup m k = none ↔ k ∉ keys m := by
  induction m with
  | nil => simp [lookup, keys]
  | cons hd t ih =>
    obtain ⟨k', v'⟩ := hd
    by_cases h : k' = k
    · subst h
      simp [lookup, keys]
    · have h' : ¬ k = k' := fun e => h e.symm
      simpa [lookup, keys, h, h'] using ih

theorem mem_of_lookup {V : Type} (m : GoMap V) (k : String) (v : V)
    (h : lookup m k = some v) : (k, v) ∈ m := by
  induction m with
  | nil => simp [lookup] at h
  | cons hd t ih =>
    obtain ⟨k', v'⟩ := hd
    by_cases hk : k' = k
    · subst hk
      simp [lookup] at h
      simp [h]
    · simp [lookup, hk] at h
      exact List.mem_cons_of_mem _ (ih h)

theorem lookup_of_mem {V : Type} (m : GoMap V) (k : String) (v : V)
    (hn : (keys m).Nodup) (h : (k, v) ∈ m) : lookup m k = some v := by
  induction m with
  | nil => simp at h
  | cons hd t ih =>
    obtain ⟨k', v'⟩ := hd
    simp only [keys, List.map_cons, List.nodup_cons] at hn
    rcases List.mem_cons.1 h with h | h
    · cases h
      simp [lookup]
    · have hk : k' ≠ k := by
        rintro rfl
        exact hn.1 (List.mem_map_of_mem Prod.fst h)
      simp only [lookup, hk, if_false]
      exact ih hn.2 h

theorem lookup_eq_some_iff {V : Type} (m : GoMap V) (k : String) (v : V)
    (hn : (keys m).Nodup) : lookup m k = some v ↔ (k, v) ∈ m :=
  ⟨mem_of_lookup m k v, lookup_of_mem m k v hn⟩

theorem mem_keys_iff {V : Type} (m : GoMap V) (k : String) :
    k ∈ keys m ↔ ∃ v, lookup m k = some v := by
  constructor
  · intro h
    cases hl : lookup m k with
    | none => exact absurd h ((lookup_eq_none_iff m k).1 hl)
    | some v => exact ⟨v, rfl⟩
  · rintro ⟨v, hv⟩
    by_contra hc
    rw [(lookup_eq_none_iff m k).2 hc] at hv
    cases hv

theorem store_of_not_mem {V : Type} (m : GoMap V) (k : String) (v : V)
    (h : k ∉ keys m) : store m k v = m ++ [(k, v)] := by
  induction m with
  | nil => simp [store]
  | cons hd t ih =>
    obtain ⟨k', v'⟩ := hd
    simp only [keys, List.map_cons, List.mem_cons, not_or] at h
    have hk : ¬ k' = k := fun e => h.1 e.symm
    simp [store, hk, ih h.2]

theorem keys_store_of_mem {V : Type} (m : GoMap V) (k : String) (v : V)
    (h : k ∈ keys m) : keys (store m k v) = keys m := by
  induction m with
  | nil => simp [keys] at h
  | cons hd t ih =>
    obtain ⟨k', v'⟩ := hd
    by_cases hk : k' = k
    · subst hk
      simp [store, keys]
    · have : k ∈ keys t := by
        simp only [keys, List.map_cons, List.mem_cons] at h
        rcases h with h | h
        · exact absurd h.symm hk
        · exact h
      have ih' := ih this
      simp only [keys] at ih'
      simp [store, keys, hk, ih']

theorem length_store_of_mem {V : Type} (m : GoMap V) (k : String) (v : V)
    (h : k ∈ keys m) : (store m k v).length = m.length := by
  have := congrArg List.length (keys_store_of_mem m k v h)
  simpa [keys] using this

theorem nodup_keys_store {V : Type} (m : GoMap V) (k : String) (v : V)
    (hn : (keys m).Nodup) : (keys (store m k v)).Nodup := by
  by_cases h : k ∈ keys m
  · rw [keys_store_of_mem m k v h]
    exact hn
  · rw [store_of_not_mem m k v h]
    simp only [keys, List.map_append, List.map_cons, List.map_nil]
    rw [List.nodup_append]
    refine ⟨hn, List.nodup_singleton _, ?_⟩
    intro a ha hb
    simp only [List.mem_singleton] at hb
    subst hb
    exact h ha

theorem mem_keys_store {V : Type} (m : GoMap V) (k n : String) (v : V) :
    n ∈ keys (store m k v) ↔ n = k ∨ n ∈ keys m := by
  rw [mem_keys_iff, mem_keys_iff]
  simp only [lookup_store]
  by_cases h : k = n
  · subst h
    simp
  · have h' : ¬ n = k := fun e => h e.symm
    simp [h, h']

end GoMap

/-! ## Slices and `append` -/

theorem Slice.length_toList (s : Slice) (h : s.len ≤ s.arr.length) :
    s.toList.length = s.len := by
  simp [Slice.toList, h]

theorem Slice.copyOf_WF (l : List RuleEntity) : (Slice.copyOf l).WF := by
  simp [Slice.copyOf, Slice.WF]

theorem Slice.copyOf_toList (l : List RuleEntity) : (Slice.copyOf l).toList = l := by
  simp [Slice.copyOf, Slice.toList]

theorem goAppend_len (ext : Extern) (s : Slice) (xs : List RuleEntity) :
    (goAppend ext s xs).1.len = s.len + xs.length := by
  simp only [goAppend]
  split <;> rfl

theorem goAppend_toList (ext : Extern) (s : Slice) (xs : List RuleEntity)
    (h : s.len ≤ s.arr.length) : (goAppend ext s xs).1.toList = s.toList ++ xs := by
  simp only [goAppend]
  have hl : (List.take s.len s.arr ++ xs).length = s.len + xs.length := by
    simp [h]
  split
  · simp only [Slice.toList]
    rw [List.take_append_of_le_length (by omega)]
    rw [List.take_of_length_le (by omega)]
  · simp only [Slice.toList]
    rw [List.take_of_length_le (by omega)]

theorem goAppend_WF (ext : Extern) (s : Slice) (xs : List RuleEntity)
    (h : s.len ≤ s.arr.length) : (goAppend ext s xs).1.WF := by
  simp only [goAppend]
  split
  · simp only [Slice.WF, List.length_append, List.length_take, List.length_drop]
    omega
  · simp only [Slice.WF, List.length_append, List.length_take]
    omega

theorem goAppend_inplace (ext : Extern) (s : Slice) (xs : List RuleEntity)
    (h : s.len + xs.length ≤ s.cap) :
    (goAppend ext s xs).2 = true ∧ (goAppend ext s xs).1.cap = s.cap := by
  unfold goAppend
  simp [h]

/-- A slice whose array was overwritten by an in-place `append` of the same
length shows the appended elements. -/
theorem Slice.toList_of_arr (s r : Slice) (hl : r.len = s.len) :
    ({ s with arr := r.arr } : Slice).toList = r.toList := by
  simp [Slice.toList, hl]

theorem foldl_goAppend (ext : Extern) (l : GoMap RuleEntity) (s : Slice)
    (h : s.len ≤ s.arr.length) :
    (l.foldl (fun s p => (goAppend ext s [p.2]).1) s).toList = s.toList ++ l.map Prod.snd ∧
    (l.foldl (fun s p => (goAppend ext s [p.2]).1) s).len = s.len + l.length := by
  induction l generalizing s with
  | nil => simp
  | cons hd t ih =>
    have hw := (goAppend_WF ext s [hd.2] h).1
    have := ih (goAppend ext s [hd.2]).1 hw
    simp only [List.foldl_cons, List.map_cons, List.length_cons]
    rw [this.1, this.2, goAppend_toList ext s _ h, goAppend_len]
    simp
    omega

theorem copyMap_aux (m acc : GoMap RuleEntity)
    (hn : (GoMap.keys (acc ++ m)).Nodup) :
    m.foldl (fun acc p => GoMap.store acc p.1 p.2) acc = acc ++ m := by
  induction m generalizing acc with
  | nil => simp
  | cons hd t ih =>
    have hk : hd.1 ∉ GoMap.keys acc := by
      simp only [GoMap.keys, List.map_append, List.map_cons] at hn
      rw [List.nodup_append] at hn
      intro hc
      exact hn.2.2 hc (List.mem_cons_self _ _)
    simp only [List.foldl_cons]
    rw [GoMap.store_of_not_mem acc hd.1 hd.2 hk]
    rw [ih]
    · simp
    · simpa using hn

/-- Copying a map yields the same map. -/
theorem copyMap_eq (m : GoMap RuleEntity) (hn : (GoMap.keys m).Nodup) :
    copyMap m = m := by
  unfold copyMap
  rw [copyMap_aux m [] (by simpa using hn)]
  simp

/-! ## The merge step on lists -/

theorem spliceIn_spec (ext : Extern) (s : Slice) (v : RuleEntity) (h : s.len ≤ s.arr.length) :
    let p := insertPos (ext.BinarySearch s.toList v.Salience)
    if 0 ≤ p ∧ p ≤ (s.toList.length : Int) then
      ∃ r b, spliceIn ext s v = some (r, b) ∧ r.toList = insertAt s.toList p.toNat v ∧
        r.WF ∧ r.len = s.len + 1 ∧ (s.len + 1 ≤ s.cap → b = true ∧ r.cap = s.cap)
    else spliceIn ext s v = none := by
  intro p
  have hlen := Slice.length_toList s h
  rw [hlen]
  by_cases hp : 0 ≤ p ∧ p ≤ (s.len : Int)
  · rw [if_pos hp]
    have hpn : p.toNat ≤ s.len := by omega
    have hs' : ({ s with len := p.toNat } : Slice).len ≤ ({ s with len := p.toNat } : Slice).arr.length := by
      simp only; omega
    refine ⟨(goAppend ext { s with len := p.toNat } (v :: s.toList.drop p.toNat)).1,
      (goAppend ext { s with len := p.toNat } (v :: s.toList.drop p.toNat)).2, ?_, ?_, ?_, ?_, ?_⟩
    · simp only [spliceIn]
      rw [if_pos hp]
    · rw [goAppend_toList ext _ _ hs']
      simp only [insertAt, Slice.toList, List.take_take]
      rw [min_eq_left hpn]
    · exact goAppend_WF ext _ _ hs'
    · rw [goAppend_len]
      simp only [List.length_cons, List.length_drop, hlen]
      omega
    · intro hc
      apply goAppend_inplace
      simp only [List.length_cons, List.length_drop, hlen]
      omega
  · rw [if_neg hp]
    simp only [spliceIn]
    rw [if_neg hp]

theorem take_set_of_lt (l : List RuleEntity) (n i : Nat) (v : RuleEntity) (h : i < n) :
    (l.set i v).take n = (l.take n).set i v := by
  induction l generalizing n i with
  | nil => simp
  | cons a t ih =>
    cases n with
    | zero => omega
    | succ n =>
      cases i with
      | zero => simp
      | succ i => simp [ih n i (by omega)]

theorem mergeStep_view (ext : Extern) (dc : Nat) (st : MergeState) (k : String)
    (v0 : RuleEntity) (hwf : st.newSortRules.WF) :
    (mergeStep ext dc st k v0).map MergeState.view = listStep ext dc st.view k v0 ∧
    ∀ st', mergeStep ext dc st k v0 = some st' →
      st'.newSortRules.WF ∧ st'.Kc.RuleEntities = st.Kc.RuleEntities ∧
      st'.Kc.SortRules = st.Kc.SortRules := by
  obtain ⟨hlen, hcap⟩ := hwf
  have hL := Slice.length_toList st.newSortRules hlen
  cases hlk : GoMap.lookup st.newRuleEntities k with
  | none =>
    have hsp := spliceIn_spec ext st.newSortRules (Initialize v0 dc) hlen
    simp only at hsp
    by_cases hp : 0 ≤ insertPos (ext.BinarySearch st.newSortRules.toList (Initialize v0 dc).Salience) ∧
        insertPos (ext.BinarySearch st.newSortRules.toList (Initialize v0 dc).Salience) ≤
          (st.newSortRules.toList.length : Int)
    · rw [if_pos hp] at hsp
      obtain ⟨r, b, hr, hrl, hrw, -, -⟩ := hsp
      constructor
      · simp only [mergeStep, listStep, MergeState.view, hlk, hr, if_pos hp, Option.map_some', hrl]
      · intro st' hst
        simp only [mergeStep, hlk, hr, Option.some.injEq] at hst
        subst hst
        exact ⟨hrw, rfl, rfl⟩
    · rw [if_neg hp] at hsp
      constructor
      · simp only [mergeStep, listStep, MergeState.view, hlk, hsp, if_neg hp, Option.map_none']
      · intro st' hst
        simp [mergeStep, hlk, hsp] at hst
  | some vm =>
    by_cases hs : (Initialize v0 dc).Salience = vm.Salience
    · by_cases hi : (GoMap.lookup st.Kc.SortRulesIndexMap (Initialize v0 dc).RuleName).getD 0 <
          st.newSortRules.len
      · constructor
        · simp only [mergeStep, listStep, MergeState.view, hlk, if_pos hs, if_pos hi, hL,
            Option.map_some']
          simp only [Slice.toList]
          rw [take_set_of_lt _ _ _ _ hi]
        · intro st' hst
          simp only [mergeStep, hlk, if_pos hs, if_pos hi, Option.some.injEq] at hst
          subst hst
          refine ⟨⟨?_, hcap⟩, rfl, rfl⟩
          simpa using hlen
      · constructor
        · simp only [mergeStep, listStep, MergeState.view, hlk, if_pos hs, if_neg hi, hL,
            Option.map_none']
        · intro st' hst
          simp [mergeStep, hlk, if_pos hs, if_neg hi] at hst
    · by_cases hi : (GoMap.lookup st.Kc.SortRulesIndexMap (Initialize v0 dc).RuleName).getD 0 + 1 ≤
          st.newSortRules.len
      · -- the removal, written in place behind `newSortRules[:index]`
        generalize hidx : (GoMap.lookup st.Kc.SortRulesIndexMap (Initialize v0 dc).RuleName).getD 0
          = index at hi
        have hs0 : (Slice.mk st.newSortRules.arr index st.newSortRules.cap).len ≤
            (Slice.mk st.newSortRules.arr index st.newSortRules.cap).arr.length := by
          simp only; omega
        have hdl : (st.newSortRules.toList.drop (index + 1)).length =
            st.newSortRules.len - (index + 1) := by
          simp [hL]
        have hrem := goAppend_inplace ext (Slice.mk st.newSortRules.arr index st.newSortRules.cap)
          (st.newSortRules.toList.drop (index + 1)) (by simp only [hdl]; omega)
        have hremL := goAppend_toList ext (Slice.mk st.newSortRules.arr index st.newSortRules.cap)
          (st.newSortRules.toList.drop (index + 1)) hs0
        have hremW := goAppend_WF ext (Slice.mk st.newSortRules.arr index st.newSortRules.cap)
          (st.newSortRules.toList.drop (index + 1)) hs0
        have hremN := goAppend_len ext (Slice.mk st.newSortRules.arr index st.newSortRules.cap)
          (st.newSortRules.toList.drop (index + 1))
        simp only [mergeStep, listStep, MergeState.view, hlk, if_neg hs, hidx, if_pos hi, hL]
        generalize goAppend ext (Slice.mk st.newSortRules.arr index st.newSortRules.cap)
          (st.newSortRules.toList.drop (index + 1)) = removed at hrem hremL hremW hremN ⊢
        simp only at hrem hremN
        have hremN' : removed.1.len + 1 = st.newSortRules.len := by
          rw [hremN, hdl]; omega
        have herase : removed.1.toList = st.newSortRules.toList.eraseIdx index := by
          rw [hremL, List.eraseIdx_eq_take_drop_succ]
          simp only [Slice.toList, List.take_take]
          rw [min_eq_left (by omega)]
        have hsp := spliceIn_spec ext removed.1 (Initialize v0 dc) hremW.1
        simp only at hsp
        rw [herase] at hsp
        by_cases hp : 0 ≤ insertPos (ext.BinarySearch (st.newSortRules.toList.eraseIdx index)
              (Initialize v0 dc).Salience) ∧
            insertPos (ext.BinarySearch (st.newSortRules.toList.eraseIdx index)
              (Initialize v0 dc).Salience) ≤
              ((st.newSortRules.toList.eraseIdx index).length : Int)
        · rw [if_pos hp] at hsp
          obtain ⟨r, b, hr, hrl, hrw, hrn, hrc⟩ := hsp
          have hrc' := hrc (by rw [hrem.2]; omega)
          have hsee : (Slice.mk r.arr st.newSortRules.len st.newSortRules.cap).toList =
              r.toList := by
            simp only [Slice.toList]
            congr 1
            omega
          simp only [hr, if_pos hp, Option.map_some', hrem.1, hrc'.1, Bool.and_self,
              if_true, Option.some.injEq]
          constructor
          · simp only [MergeState.view, hsee, hrl]
          · intro st' hst
            subst hst
            refine ⟨⟨?_, hcap⟩, rfl, rfl⟩
            simp only
            have := hrw.1
            omega
        · rw [if_neg hp] at hsp
          simp [hsp, if_neg hp]
      · constructor
        · simp only [mergeStep, listStep, MergeState.view, hlk, if_neg hs, if_neg hi, hL,
            Option.map_none']
        · intro st' hst
          simp [mergeStep, hlk, if_neg hs, if_neg hi] at hst

/-! ## The index loop -/

theorem nodup_keys_indexLoop (l : List RuleEntity) (k : Nat) (m : GoMap Nat)
    (h : (GoMap.keys m).Nodup) : (GoMap.keys (indexLoop k l m)).Nodup := by
  induction l generalizing k m with
  | nil => simpa [indexLoop] using h
  | cons v t ih =>
    simp only [indexLoop]
    exact ih _ _ (GoMap.nodup_keys_store m _ _ h)

theorem lookup_indexLoop (l : List RuleEntity) (k : Nat) (m : GoMap Nat)
    (hn : (l.map RuleEntity.RuleName).Nodup) (n : String) (i : Nat) :
    GoMap.lookup (indexLoop k l m) n = some i ↔
      (∃ j, (l.map RuleEntity.RuleName)[j]? = some n ∧ i = k + j) ∨
      (n ∉ l.map RuleEntity.RuleName ∧ GoMap.lookup m n = some i) := by
  induction l generalizing k m with
  | nil => simp [indexLoop]
  | cons v t ih =>
    simp only [List.map_cons, List.nodup_cons] at hn
    simp only [indexLoop]
    rw [ih (k + 1) _ hn.2, GoMap.lookup_store]
    by_cases hv : v.RuleName = n
    · subst hv
      have hno : ∀ j, ¬ (t.map RuleEntity.RuleName)[j]? = some v.RuleName :=
        fun j hj => hn.1 (List.getElem?_mem hj)
      constructor
      · rintro (⟨j, hj, -⟩ | ⟨-, hi⟩)
        · exact absurd hj (hno j)
        · left
          refine ⟨0, by simp, ?_⟩
          simp only [if_true, Option.some.injEq] at hi
          omega
      · rintro (⟨j, hj, hi⟩ | ⟨hm, -⟩)
        · right
          cases j with
          | zero => exact ⟨hn.1, by simp [hi]⟩
          | succ j =>
            simp only [List.map_cons, List.getElem?_cons_succ] at hj
            exact absurd hj (hno j)
        · simp at hm
    · have hv' : ¬ n = v.RuleName := fun e => hv e.symm
      constructor
      · rintro (⟨j, hj, hi⟩ | ⟨hm, hi⟩)
        · left
          exact ⟨j + 1, by simpa using hj, by omega⟩
        · right
          simp only [hv, if_false] at hi
          exact ⟨by simp [hv', hm], hi⟩
      · rintro (⟨j, hj, hi⟩ | ⟨hm, hi⟩)
        · left
          cases j with
          | zero =>
            simp only [List.map_cons, List.getElem?_cons_zero, Option.some.injEq] at hj
            exact absurd hj hv
          | succ j =>
            simp only [List.map_cons, List.getElem?_cons_succ] at hj
            exact ⟨j, hj, by omega⟩
        · right
          simp only [List.map_cons, List.mem_cons, not_or] at hm
          simp only [hv, if_false]
          exact ⟨hm.2, hi⟩

/-- The index rebuilt from an ordering with distinct names holds exactly the
positions of the names. -/
theorem lookup_indexLoop_zero (l : List RuleEntity)
    (hn : (l.map RuleEntity.RuleName).Nodup) (n : String) (i : Nat) :
    GoMap.lookup (indexLoop 0 l []) n = some i ↔
      (l.map RuleEntity.RuleName)[i]? = some n := by
  rw [lookup_indexLoop l 0 [] hn]
  simp [GoMap.lookup]

/-! ## The invariant, in the form the merge loop carries -/

theorem getElem?_map_name (l : List RuleEntity) (i : Nat) (e : RuleEntity)
    (h : l[i]? = some e) : (l.map RuleEntity.RuleName)[i]? = some e.RuleName := by
  simp [List.getElem?_map, h]

theorem exists_of_getElem?_map_name (l : List RuleEntity) (i : Nat) (n : String)
    (h : (l.map RuleEntity.RuleName)[i]? = some n) : ∃ e, l[i]? = some e ∧ e.RuleName = n := by
  rw [List.getElem?_map] at h
  cases hl : l[i]? with
  | none => simp [hl] at h
  | some e =>
    simp only [hl, Option.map_some', Option.some.injEq] at h
    exact ⟨e, rfl, h⟩

theorem Good.keys_perm_reg {kc : KnowledgeContext} (h : Good kc) :
    (GoMap.keys kc.RuleEntities).Perm (kc.SortRules.map RuleEntity.RuleName) := by
  refine (List.perm_ext_iff_of_nodup h.regKeys h.names).2 (fun a => ?_)
  rw [GoMap.mem_keys_iff, List.mem_map]
  constructor
  · rintro ⟨v, hv⟩
    exact ⟨v, (h.reg a v).1 hv⟩
  · rintro ⟨v, hv⟩
    exact ⟨v, (h.reg a v).2 hv⟩

theorem Good.keys_perm_idx {kc : KnowledgeContext} (h : Good kc) :
    (GoMap.keys kc.SortRulesIndexMap).Perm (kc.SortRules.map RuleEntity.RuleName) := by
  refine (List.perm_ext_iff_of_nodup h.idxKeys h.names).2 (fun a => ?_)
  rw [GoMap.mem_keys_iff, List.mem_iff_getElem?]
  constructor
  · rintro ⟨i, hi⟩
    exact ⟨i, (h.idx a i).1 hi⟩
  · rintro ⟨i, hi⟩
    exact ⟨i, (h.idx a i).2 hi⟩

theorem Good.length_reg {kc : KnowledgeContext} (h : Good kc) :
    kc.RuleEntities.length = kc.SortRules.length := by
  simpa [GoMap.keys] using h.keys_perm_reg.length_eq

theorem Good.length_idx {kc : KnowledgeContext} (h : Good kc) :
    kc.SortRulesIndexMap.length = kc.SortRules.length := by
  simpa [GoMap.keys] using h.keys_perm_idx.length_eq

theorem Good.nameKeyed {kc : KnowledgeContext} (h : Good kc) : NameKeyed kc.RuleEntities := by
  refine ⟨h.regKeys, fun p hp => ?_⟩
  have := GoMap.lookup_of_mem kc.RuleEntities p.1 p.2 h.regKeys hp
  exact ((h.reg p.1 p.2).1 this).2

/-- The carried facts give the invariant as the specification states it. -/
theorem Good.toInv {kc : KnowledgeContext} (h : Good kc) (hs : SortedDesc kc.SortRules) :
    KcInv kc ∧ KcWf kc := by
  refine ⟨⟨h.length_reg, h.length_idx.symm, hs, fun p hp => ?_⟩, h.nameKeyed, h.idxKeys⟩
  have hl := GoMap.lookup_of_mem kc.RuleEntities p.1 p.2 h.regKeys hp
  obtain ⟨hm, hname⟩ := (h.reg p.1 p.2).1 hl
  obtain ⟨i, hi⟩ := List.mem_iff_getElem?.1 hm
  have hidx := (h.idx p.1 i).2 (by rw [← hname]; exact getElem?_map_name _ _ _ hi)
  rw [hidx]
  simpa using hi

/-- The invariant as the specification states it, on well-formed maps, gives
the carried facts. -/
theorem Good.ofInv {kc : KnowledgeContext} (hinv : KcInv kc) (hwf : KcWf kc) : Good kc := by
  obtain ⟨hlen1, hlen2, -, h3⟩ := hinv
  obtain ⟨⟨hrk, hnk⟩, hik⟩ := hwf
  -- every entry of the registry has a position, and the ordering holds it there
  have hpos : ∀ p ∈ kc.RuleEntities, ∃ i, GoMap.lookup kc.SortRulesIndexMap p.1 = some i ∧
      kc.SortRules[i]? = some p.2 := by
    intro p hp
    have := h3 p hp
    cases hl : GoMap.lookup kc.SortRulesIndexMap p.1 with
    | none => simp [hl] at this
    | some i => exact ⟨i, rfl, by simpa [hl] using this⟩
  -- every position is the position of an entry of the registry
  have hsurj : ∀ i, i < kc.SortRules.length → ∃ p ∈ kc.RuleEntities,
      GoMap.lookup kc.SortRulesIndexMap p.1 = some i ∧ kc.SortRules[i]? = some p.2 := by
    have hnd : (kc.RuleEntities.map
        (fun p => (GoMap.lookup kc.SortRulesIndexMap p.1).getD 0)).Nodup := by
      refine List.Nodup.map_on ?_ (List.Nodup.of_map Prod.fst hrk)
      intro p hp q hq hpq
      obtain ⟨i, hi, hli⟩ := hpos p hp
      obtain ⟨j, hj, hlj⟩ := hpos q hq
      simp only [hi, hj, Option.getD_some] at hpq
      subst hpq
      have h2 : p.2 = q.2 := by
        rw [hli] at hlj
        exact Option.some.inj hlj
      have h1 : p.1 = q.1 := by rw [← hnk p hp, ← hnk q hq, h2]
      exact Prod.ext h1 h2
    have hsub : kc.RuleEntities.map
        (fun p => (GoMap.lookup kc.SortRulesIndexMap p.1).getD 0) ⊆
        List.range kc.SortRules.length := by
      intro i hi
      obtain ⟨p, hp, rfl⟩ := List.mem_map.1 hi
      obtain ⟨i, hi, hli⟩ := hpos p hp
      simp only [hi, Option.getD_some, List.mem_range]
      obtain ⟨hlt, -⟩ := List.getElem?_eq_some.1 hli
      exact hlt
    have hperm := (hnd.subperm hsub).perm_of_length_le (by simp [hlen1])
    intro i hi
    have : i ∈ kc.RuleEntities.map
        (fun p => (GoMap.lookup kc.SortRulesIndexMap p.1).getD 0) :=
      hperm.symm.subset (List.mem_range.2 hi)
    obtain ⟨p, hp, hpi⟩ := List.mem_map.1 this
    obtain ⟨j, hj, hlj⟩ := hpos p hp
    simp only [hj, Option.getD_some] at hpi
    subst hpi
    exact ⟨p, hp, hj, hlj⟩
  -- the name at a position is the key of that entry
  have hname : ∀ i n, (kc.SortRules.map RuleEntity.RuleName)[i]? = some n →
      ∃ e, (n, e) ∈ kc.RuleEntities ∧ GoMap.lookup kc.SortRulesIndexMap n = some i ∧
        kc.SortRules[i]? = some e := by
    intro i n hi
    obtain ⟨e, he, hen⟩ := exists_of_getElem?_map_name _ _ _ hi
    obtain ⟨hlt, -⟩ := List.getElem?_eq_some.1 he
    obtain ⟨p, hp, hpi, hpl⟩ := hsurj i hlt
    have h2 : p.2 = e := by
      rw [he] at hpl
      exact (Option.some.inj hpl).symm
    have h1 : p.1 = n := by rw [← hnk p hp, h2, hen]
    refine ⟨e, ?_, by rw [← h1]; exact hpi, he⟩
    rw [← h1, ← h2]
    exact hp
  -- the keys of the index are the keys of the registry
  have hkeys : ∀ n, n ∈ GoMap.keys kc.SortRulesIndexMap → n ∈ GoMap.keys kc.RuleEntities := by
    have hsub : GoMap.keys kc.RuleEntities ⊆ GoMap.keys kc.SortRulesIndexMap := by
      intro n hn
      obtain ⟨p, hp, rfl⟩ := List.mem_map.1 hn
      obtain ⟨i, hi, -⟩ := hpos p hp
      exact (GoMap.mem_keys_iff _ _).2 ⟨i, hi⟩
    have hperm := (hrk.subperm hsub).perm_of_length_le
      (by simp [GoMap.keys, hlen1, hlen2])
    exact fun n hn => hperm.symm.subset hn
  refine ⟨?_, hrk, ?_, hik, ?_⟩
  · rw [List.nodup_iff_getElem?_ne_getElem?]
    intro i j hij hj heq
    have hj' : j < kc.SortRules.length := by simpa using hj
    obtain ⟨n, hn⟩ : ∃ n, (kc.SortRules.map RuleEntity.RuleName)[j]? = some n :=
      ⟨_, List.getElem?_eq_getElem hj⟩
    obtain ⟨-, -, h1, -⟩ := hname j n hn
    obtain ⟨-, -, h2, -⟩ := hname i n (heq.trans hn)
    rw [h1] at h2
    have := Option.some.inj h2
    omega
  · intro n e
    constructor
    · intro hl
      have hm := GoMap.mem_of_lookup _ _ _ hl
      obtain ⟨i, -, hli⟩ := hpos (n, e) hm
      exact ⟨List.getElem?_mem hli, hnk (n, e) hm⟩
    · rintro ⟨hm, hen⟩
      obtain ⟨i, hi⟩ := List.mem_iff_getElem?.1 hm
      obtain ⟨e', hmem, -, hl⟩ := hname i n (by rw [← hen]; exact getElem?_map_name _ _ _ hi)
      have : e' = e := by
        rw [hi] at hl
        exact (Option.some.inj hl).symm
      subst this
      exact GoMap.lookup_of_mem _ _ _ hrk hmem
  · intro n i
    constructor
    · intro hl
      have hk := hkeys n ((GoMap.mem_keys_iff _ _).2 ⟨i, hl⟩)
      obtain ⟨p, hp, hpn⟩ := List.mem_map.1 hk
      obtain ⟨j, hj, hlj⟩ := hpos p hp
      rw [hpn, hl] at hj
      have hij := Option.some.inj hj
      subst hij
      have := getElem?_map_name _ _ _ hlj
      rw [hnk p hp, hpn] at this
      exact this
    · intro hi
      obtain ⟨-, -, h1, -⟩ := hname i n hi
      exact h1

/-! ## Splicing and erasing -/

theorem insertAt_perm (l : List RuleEntity) (p : Nat) (v : RuleEntity) :
    (insertAt l p v).Perm (v :: l) := by
  unfold insertAt
  refine List.perm_middle.trans ?_
  rw [List.take_append_drop]

theorem mem_insertAt (l : List RuleEntity) (p : Nat) (v e : RuleEntity) :
    e ∈ insertAt l p v ↔ e = v ∨ e ∈ l := by
  rw [(insertAt_perm l p v).mem_iff, List.mem_cons]

theorem length_insertAt (l : List RuleEntity) (p : Nat) (v : RuleEntity) :
    (insertAt l p v).length = l.length + 1 := by
  simpa using (insertAt_perm l p v).length_eq

theorem nodup_names_insertAt (l : List RuleEntity) (p : Nat) (v : RuleEntity)
    (hn : (l.map RuleEntity.RuleName).Nodup) (hv : ∀ e ∈ l, e.RuleName ≠ v.RuleName) :
    ((insertAt l p v).map RuleEntity.RuleName).Nodup := by
  rw [((insertAt_perm l p v).map RuleEntity.RuleName).nodup_iff, List.map_cons,
    List.nodup_cons]
  refine ⟨?_, hn⟩
  intro hm
  obtain ⟨e, he, hen⟩ := List.mem_map.1 hm
  exact hv e he hen

theorem sorted_insertAt (l : List RuleEntity) (p : Int) (v : RuleEntity)
    (hs : SortedDesc l) (hp : IsInsertionPoint l v.Salience p) :
    SortedDesc (insertAt l p.toNat v) := by
  obtain ⟨-, -, hbefore, hafter⟩ := hp
  unfold SortedDesc at hs ⊢
  have hsplit : (l.take p.toNat ++ l.drop p.toNat).Pairwise
      (fun a b => b.Salience ≤ a.Salience) := by
    rw [List.take_append_drop]
    exact hs
  rw [List.pairwise_append] at hsplit
  obtain ⟨h1, h2, h3⟩ := hsplit
  unfold insertAt
  rw [List.pairwise_append]
  refine ⟨h1, List.pairwise_cons.2 ⟨hafter, h2⟩, ?_⟩
  intro a ha b hb
  rcases List.mem_cons.1 hb with hb | hb
  · subst hb
    exact hbefore a ha
  · exact h3 a ha b hb

theorem nodup_getElem?_inj (l : List String) (h : l.Nodup) (i j : Nat) (n : String)
    (hi : l[i]? = some n) (hj : l[j]? = some n) : i = j := by
  obtain ⟨hi', hi''⟩ := List.getElem?_eq_some.1 hi
  obtain ⟨hj', hj''⟩ := List.getElem?_eq_some.1 hj
  exact (h.getElem_inj_iff).1 (hi''.trans hj''.symm)

/-- With distinct names, erasing the position of the entity named `k` leaves
exactly the entities with another name. -/
theorem mem_eraseIdx_name (l : List RuleEntity) (i : Nat) (vm e : RuleEntity)
    (hn : (l.map RuleEntity.RuleName).Nodup) (hi : l[i]? = some vm) :
    e ∈ l.eraseIdx i ↔ e ∈ l ∧ e.RuleName ≠ vm.RuleName := by
  rw [List.mem_eraseIdx_iff_getElem?]
  constructor
  · rintro ⟨j, hj, hje⟩
    refine ⟨List.getElem?_mem hje, fun hname => hj ?_⟩
    exact nodup_getElem?_inj _ hn j i vm.RuleName
      (by rw [← hname]; exact getElem?_map_name _ _ _ hje) (getElem?_map_name _ _ _ hi)
  · rintro ⟨hm, hne⟩
    obtain ⟨j, hj⟩ := List.mem_iff_getElem?.1 hm
    refine ⟨j, ?_, hj⟩
    rintro rfl
    rw [hi] at hj
    exact hne (by rw [Option.some.inj hj])

theorem nodup_names_eraseIdx (l : List RuleEntity) (i : Nat)
    (hn : (l.map RuleEntity.RuleName).Nodup) :
    ((l.eraseIdx i).map RuleEntity.RuleName).Nodup :=
  hn.sublist ((List.eraseIdx_sublist l i).map _)

theorem sorted_eraseIdx (l : List RuleEntity) (i : Nat) (hs : SortedDesc l) :
    SortedDesc (l.eraseIdx i) :=
  List.Pairwise.sublist (List.eraseIdx_sublist l i) hs

theorem length_eraseIdx_of_lt (l : List RuleEntity) (i : Nat) (h : i < l.length) :
    (l.eraseIdx i).length + 1 = l.length := by
  rw [List.length_eraseIdx]
  simp only [h, if_true]
  omega

/-! ## The three updates keep the carried facts -/

theorem map_set_of_eq {β : Type} (f : RuleEntity → β) (l : List RuleEntity) (i : Nat)
    (v vm : RuleEntity) (hi : l[i]? = some vm) (hf : f v = f vm) :
    (l.set i v).map f = l.map f := by
  induction l generalizing i with
  | nil => simp
  | cons a t ih =>
    cases i with
    | zero =>
      simp only [List.getElem?_cons_zero, Option.some.injEq] at hi
      subst hi
      simp [hf]
    | succ i =>
      simp only [List.getElem?_cons_succ] at hi
      simp [ih i hi]

theorem sortedDesc_iff_map (l : List RuleEntity) :
    SortedDesc l ↔ (l.map RuleEntity.Salience).Pairwise (fun a b => b ≤ a) := by
  unfold SortedDesc
  rw [List.pairwise_map]

theorem sorted_set (l : List RuleEntity) (i : Nat) (v vm : RuleEntity)
    (hi : l[i]? = some vm) (hs : v.Salience = vm.Salience) (h : SortedDesc l) :
    SortedDesc (l.set i v) := by
  rw [sortedDesc_iff_map] at h ⊢
  rw [map_set_of_eq RuleEntity.Salience l i v vm hi hs]
  exact h

theorem good_rebuild (R : GoMap RuleEntity) (L : List RuleEntity)
    (hn : (L.map RuleEntity.RuleName).Nodup) (hk : (GoMap.keys R).Nodup)
    (hreg : ∀ n e, GoMap.lookup R n = some e ↔ e ∈ L ∧ e.RuleName = n) :
    Good { RuleEntities := R, SortRules := L, SortRulesIndexMap := indexLoop 0 L [] } :=
  ⟨hn, hk, hreg, nodup_keys_indexLoop _ _ _ (by simp [GoMap.keys]),
    lookup_indexLoop_zero L hn⟩

theorem reg_insert (R : GoMap RuleEntity) (L0 : List RuleEntity) (p : Nat) (v : RuleEntity)
    (hv : ∀ e ∈ L0, e.RuleName ≠ v.RuleName)
    (hreg : ∀ n e, n ≠ v.RuleName →
      (GoMap.lookup R n = some e ↔ e ∈ L0 ∧ e.RuleName = n)) (n : String) (e : RuleEntity) :
    GoMap.lookup (GoMap.store R v.RuleName v) n = some e ↔
      e ∈ insertAt L0 p v ∧ e.RuleName = n := by
  rw [GoMap.lookup_store, mem_insertAt]
  by_cases hvn : v.RuleName = n
  · subst hvn
    simp only [if_true, Option.some.injEq]
    constructor
    · rintro rfl
      exact ⟨Or.inl rfl, rfl⟩
    · rintro ⟨h | h, hname⟩
      · exact h.symm
      · exact absurd hname (hv e h)
  · simp only [hvn, if_false]
    rw [hreg n e (fun h => hvn h.symm)]
    constructor
    · rintro ⟨h, hname⟩
      exact ⟨Or.inr h, hname⟩
    · rintro ⟨h | h, hname⟩
      · subst h
        exact absurd hname hvn
      · exact ⟨h, hname⟩

/-- A new name spliced in at any position. -/
theorem good_new (kc : KnowledgeContext) (p : Nat) (v : RuleEntity) (hg : Good kc)
    (hnew : GoMap.lookup kc.RuleEntities v.RuleName = none) :
    Good { RuleEntities := GoMap.store kc.RuleEntities v.RuleName v,
           SortRules := insertAt kc.SortRules p v,
           SortRulesIndexMap := indexLoop 0 (insertAt kc.SortRules p v) [] } := by
  have hv : ∀ e ∈ kc.SortRules, e.RuleName ≠ v.RuleName := by
    intro e he hname
    have := (hg.reg v.RuleName e).2 ⟨he, hname⟩
    rw [hnew] at this
    cases this
  exact good_rebuild _ _ (nodup_names_insertAt _ _ _ hg.names hv)
    (GoMap.nodup_keys_store _ _ _ hg.regKeys)
    (reg_insert _ _ _ _ hv (fun n e _ => hg.reg n e))

/-- An existing name moved to any position. -/
theorem good_move (kc : KnowledgeContext) (i p : Nat) (v vm : RuleEntity) (hg : Good kc)
    (hi : kc.SortRules[i]? = some vm) (hname : vm.RuleName = v.RuleName) :
    Good { RuleEntities := GoMap.store kc.RuleEntities v.RuleName v,
           SortRules := insertAt (kc.SortRules.eraseIdx i) p v,
           SortRulesIndexMap := indexLoop 0 (insertAt (kc.SortRules.eraseIdx i) p v) [] } := by
  have hv : ∀ e ∈ kc.SortRules.eraseIdx i, e.RuleName ≠ v.RuleName := by
    intro e he
    rw [← hname]
    exact ((mem_eraseIdx_name _ _ _ _ hg.names hi).1 he).2
  refine good_rebuild _ _ (nodup_names_insertAt _ _ _ (nodup_names_eraseIdx _ _ hg.names) hv)
    (GoMap.nodup_keys_store _ _ _ hg.regKeys) (reg_insert _ _ _ _ hv ?_)
  intro n e hne
  rw [hg.reg n e, mem_eraseIdx_name _ _ _ _ hg.names hi, hname]
  constructor
  · rintro ⟨h, hn⟩
    exact ⟨⟨h, by rw [hn]; exact hne⟩, hn⟩
  · rintro ⟨⟨h, -⟩, hn⟩
    exact ⟨h, hn⟩

/-- An existing name replaced in its slot. -/
theorem good_replace (kc : KnowledgeContext) (i : Nat) (v vm : RuleEntity) (hg : Good kc)
    (hi : kc.SortRules[i]? = some vm) (hname : vm.RuleName = v.RuleName) :
    Good { kc with SortRules := kc.SortRules.set i v,
                   RuleEntities := GoMap.store kc.RuleEntities v.RuleName v } := by
  have hmap : (kc.SortRules.set i v).map RuleEntity.RuleName =
      kc.SortRules.map RuleEntity.RuleName :=
    map_set_of_eq RuleEntity.RuleName _ _ _ _ hi hname.symm
  obtain ⟨hlt, -⟩ := List.getElem?_eq_some.1 hi
  have hset : (kc.SortRules.set i v)[i]? = some v := by
    rw [List.getElem?_set_self hlt]
  refine ⟨by rw [hmap]; exact hg.names, GoMap.nodup_keys_store _ _ _ hg.regKeys, ?_,
    hg.idxKeys, fun n j => by rw [hmap]; exact hg.idx n j⟩
  intro n e
  simp only
  rw [GoMap.lookup_store]
  by_cases hvn : v.RuleName = n
  · subst hvn
    simp only [if_true, Option.some.injEq]
    constructor
    · rintro rfl
      exact ⟨List.getElem?_mem hset, rfl⟩
    · rintro ⟨hm, hen⟩
      obtain ⟨j, hj⟩ := List.mem_iff_getElem?.1 hm
      have hji : j = i := by
        refine nodup_getElem?_inj _ hg.names j i v.RuleName ?_ ?_
        · rw [← hmap, ← hen]
          exact getElem?_map_name _ _ _ hj
        · rw [← hname]
          exact getElem?_map_name _ _ _ hi
      subst hji
      rw [hset] at hj
      exact Option.some.inj hj
  · simp only [hvn, if_false]
    rw [hg.reg n e]
    constructor
    · rintro ⟨hm, hen⟩
      obtain ⟨j, hj⟩ := List.mem_iff_getElem?.1 hm
      have hji : i ≠ j := by
        rintro rfl
        rw [hi] at hj
        have := Option.some.inj hj
        subst this
        exact hvn (hname.symm.trans hen)
      refine ⟨?_, hen⟩
      apply List.getElem?_mem (n := j)
      rw [List.getElem?_set_ne hji]
      exact hj
    · rintro ⟨hm, hen⟩
      obtain ⟨j, hj⟩ := List.mem_iff_getElem?.1 hm
      have hji : i ≠ j := by
        rintro rfl
        rw [hset] at hj
        have := Option.some.inj hj
        subst this
        exact hvn hen
      rw [List.getElem?_set_ne hji] at hj
      exact ⟨List.getElem?_mem hj, hen⟩

/-! ## One merge step, on lists -/

theorem index_of_good {kc : KnowledgeContext} (hg : Good kc) (k : String) (vm : RuleEntity)
    (hl : GoMap.lookup kc.RuleEntities k = some vm) :
    ∃ i, kc.SortRules[i]? = some vm ∧ vm.RuleName = k ∧
      GoMap.lookup kc.SortRulesIndexMap k = some i ∧ i < kc.SortRules.length := by
  obtain ⟨hm, hname⟩ := (hg.reg k vm).1 hl
  obtain ⟨i, hi⟩ := List.mem_iff_getElem?.1 hm
  obtain ⟨hlt, -⟩ := List.getElem?_eq_some.1 hi
  refine ⟨i, hi, hname, (hg.idx k i).2 ?_, hlt⟩
  rw [← hname]
  exact getElem?_map_name _ _ _ hi

/-- The step for a name that is not in the registry. -/
theorem listStep_new (ext : Extern) (dc : Nat) (kc : KnowledgeContext) (k : String)
    (v0 : RuleEntity) (hnew : GoMap.lookup kc.RuleEntities k = none) :
    listStep ext dc kc k v0 =
      if 0 ≤ insertPos (ext.BinarySearch kc.SortRules v0.Salience) ∧
          insertPos (ext.BinarySearch kc.SortRules v0.Salience) ≤ (kc.SortRules.length : Int) then
        some { RuleEntities := GoMap.store kc.RuleEntities k (Initialize v0 dc),
               SortRules := insertAt kc.SortRules
                 (insertPos (ext.BinarySearch kc.SortRules v0.Salience)).toNat (Initialize v0 dc),
               SortRulesIndexMap := indexLoop 0 (insertAt kc.SortRules
                 (insertPos (ext.BinarySearch kc.SortRules v0.Salience)).toNat
                 (Initialize v0 dc)) [] }
      else none := by
  simp only [listStep, hnew, Initialize]

/-- The step for a name of the registry whose salience is unchanged. -/
theorem listStep_same (ext : Extern) (dc : Nat) (kc : KnowledgeContext) (k : String)
    (v0 vm : RuleEntity) (i : Nat) (hl : GoMap.lookup kc.RuleEntities k = some vm)
    (hidx : GoMap.lookup kc.SortRulesIndexMap v0.RuleName = some i)
    (hi : i < kc.SortRules.length) (hs : v0.Salience = vm.Salience) :
    listStep ext dc kc k v0 =
      some { kc with SortRules := kc.SortRules.set i (Initialize v0 dc),
                     RuleEntities := GoMap.store kc.RuleEntities k (Initialize v0 dc) } := by
  simp only [listStep, hl, Initialize, hidx, Option.getD_some, hs, if_true, hi]

/-- The step for a name of the registry whose salience changed. -/
theorem listStep_changed (ext : Extern) (dc : Nat) (kc : KnowledgeContext) (k : String)
    (v0 vm : RuleEntity) (i : Nat) (hl : GoMap.lookup kc.RuleEntities k = some vm)
    (hidx : GoMap.lookup kc.SortRulesIndexMap v0.RuleName = some i)
    (hi : i < kc.SortRules.length) (hs : v0.Salience ≠ vm.Salience) :
    listStep ext dc kc k v0 =
      if 0 ≤ insertPos (ext.BinarySearch (kc.SortRules.eraseIdx i) v0.Salience) ∧
          insertPos (ext.BinarySearch (kc.SortRules.eraseIdx i) v0.Salience) ≤
            ((kc.SortRules.eraseIdx i).length : Int) then
        some { RuleEntities := GoMap.store kc.RuleEntities k (Initialize v0 dc),
               SortRules := insertAt (kc.SortRules.eraseIdx i)
                 (insertPos (ext.BinarySearch (kc.SortRules.eraseIdx i) v0.Salience)).toNat
                 (Initialize v0 dc),
               SortRulesIndexMap := indexLoop 0 (insertAt (kc.SortRules.eraseIdx i)
                 (insertPos (ext.BinarySearch (kc.SortRules.eraseIdx i) v0.Salience)).toNat
                 (Initialize v0 dc)) [] }
      else none := by
  have hi' : i + 1 ≤ kc.SortRules.length := hi
  simp only [listStep, hl, Initialize, hidx, Option.getD_some, hs, if_false, hi', if_true]

/-- A successful step keeps the carried facts, whatever the search returns. -/
theorem listStep_good (ext : Extern) (dc : Nat) (kc kc' : KnowledgeContext) (k : String)
    (v0 : RuleEntity) (hg : Good kc) (hk : v0.RuleName = k)
    (h : listStep ext dc kc k v0 = some kc') : Good kc' := by
  subst hk
  cases hl : GoMap.lookup kc.RuleEntities v0.RuleName with
  | none =>
    rw [listStep_new ext dc kc _ v0 hl] at h
    split at h
    · cases h
      exact good_new kc _ (Initialize v0 dc) hg hl
    · cases h
  | some vm =>
    obtain ⟨i, hi, hname, hidx, hlt⟩ := index_of_good hg _ vm hl
    by_cases hs : v0.Salience = vm.Salience
    · rw [listStep_same ext dc kc _ v0 vm i hl hidx hlt hs] at h
      cases h
      exact good_replace kc i (Initialize v0 dc) vm hg hi hname
    · rw [listStep_changed ext dc kc _ v0 vm i hl hidx hlt hs] at h
      split at h
      · cases h
        exact good_move kc i _ (Initialize v0 dc) vm hg hi hname
      · cases h

/-- With a valid search, a successful step keeps the ordering sorted. -/
theorem listStep_sorted (ext : Extern) (dc : Nat) (kc kc' : KnowledgeContext) (k : String)
    (v0 : RuleEntity) (hg : Good kc) (hs : SortedDesc kc.SortRules)
    (hbs : ValidSearch ext.BinarySearch) (hk : v0.RuleName = k)
    (h : listStep ext dc kc k v0 = some kc') : SortedDesc kc'.SortRules := by
  subst hk
  cases hl : GoMap.lookup kc.RuleEntities v0.RuleName with
  | none =>
    rw [listStep_new ext dc kc _ v0 hl] at h
    split at h
    · cases h
      exact sorted_insertAt _ _ (Initialize v0 dc) hs (hbs _ _ hs)
    · cases h
  | some vm =>
    obtain ⟨i, hi, hname, hidx, hlt⟩ := index_of_good hg _ vm hl
    by_cases hsal : v0.Salience = vm.Salience
    · rw [listStep_same ext dc kc _ v0 vm i hl hidx hlt hsal] at h
      cases h
      exact sorted_set _ _ (Initialize v0 dc) vm hi hsal hs
    · rw [listStep_changed ext dc kc _ v0 vm i hl hidx hlt hsal] at h
      split at h
      · cases h
        exact sorted_insertAt _ _ (Initialize v0 dc) (sorted_eraseIdx _ _ hs)
          (hbs _ _ (sorted_eraseIdx _ _ hs))
      · cases h

/-- With a valid search, the step does not panic. -/
theorem listStep_isSome (ext : Extern) (dc : Nat) (kc : KnowledgeContext) (k : String)
    (v0 : RuleEntity) (hg : Good kc) (hs : SortedDesc kc.SortRules)
    (hbs : ValidSearch ext.BinarySearch) (hk : v0.RuleName = k) :
    ∃ kc', listStep ext dc kc k v0 = some kc' := by
  subst hk
  cases hl : GoMap.lookup kc.RuleEntities v0.RuleName with
  | none =>
    rw [listStep_new ext dc kc _ v0 hl]
    have hp := hbs kc.SortRules v0.Salience hs
    rw [if_pos ⟨hp.1, hp.2.1⟩]
    exact ⟨_, rfl⟩
  | some vm =>
    obtain ⟨i, hi, hname, hidx, hlt⟩ := index_of_good hg _ vm hl
    by_cases hsal : v0.Salience = vm.Salience
    · rw [listStep_same ext dc kc _ v0 vm i hl hidx hlt hsal]
      exact ⟨_, rfl⟩
    · rw [listStep_changed ext dc kc _ v0 vm i hl hidx hlt hsal]
      have hp := hbs (kc.SortRules.eraseIdx i) v0.Salience (sorted_eraseIdx _ _ hs)
      rw [if_pos ⟨hp.1, hp.2.1⟩]
      exact ⟨_, rfl⟩

/-! ## The merge loop -/

theorem mergeLoop_view (ext : Extern) (dc : Nat) (l : List (String × RuleEntity))
    (st : MergeState) (hwf : st.newSortRules.WF) :
    (∀ st', mergeLoop ext dc st l = Except.ok st' →
      listLoop ext dc st.view l = some st'.view) ∧
    (∀ st', mergeLoop ext dc st l = Except.error st' → listLoop ext dc st.view l = none) := by
  induction l generalizing st with
  | nil =>
    constructor
    · intro st' h
      simp only [mergeLoop, Except.ok.injEq] at h
      subst h
      rfl
    · intro st' h
      simp [mergeLoop] at h
  | cons hd t ih =>
    obtain ⟨k, v⟩ := hd
    obtain ⟨hview, hframe⟩ := mergeStep_view ext dc st k v hwf
    cases hstep : mergeStep ext dc st k v with
    | none =>
      rw [hstep] at hview
      constructor
      · intro st' h
        simp [mergeLoop, hstep] at h
      · intro st' _
        simp only [listLoop, ← hview, Option.map_none']
    | some st1 =>
      rw [hstep] at hview
      obtain ⟨hwf1, -, -⟩ := hframe st1 hstep
      obtain ⟨ih1, ih2⟩ := ih st1 hwf1
      constructor
      · intro st' h
        simp only [mergeLoop, hstep] at h
        simp only [listLoop, ← hview, Option.map_some']
        exact ih1 st' h
      · intro st' h
        simp only [mergeLoop, hstep] at h
        simp only [listLoop, ← hview, Option.map_some']
        exact ih2 st' h

theorem listLoop_good (ext : Extern) (dc : Nat) (l : List (String × RuleEntity))
    (kc kc' : KnowledgeContext) (hg : Good kc) (hk : ∀ p ∈ l, p.2.RuleName = p.1)
    (h : listLoop ext dc kc l = some kc') : Good kc' := by
  induction l generalizing kc with
  | nil =>
    simp only [listLoop, Option.some.injEq] at h
    subst h
    exact hg
  | cons hd t ih =>
    obtain ⟨k, v⟩ := hd
    cases hstep : listStep ext dc kc k v with
    | none => simp [listLoop, hstep] at h
    | some kc1 =>
      simp only [listLoop, hstep] at h
      exact ih kc1 (listStep_good ext dc kc kc1 k v hg (hk (k, v) (List.mem_cons_self _ _)) hstep)
        (fun p hp => hk p (List.mem_cons_of_mem _ hp)) h

theorem listLoop_sorted (ext : Extern) (dc : Nat) (l : List (String × RuleEntity))
    (kc kc' : KnowledgeContext) (hg : Good kc) (hs : SortedDesc kc.SortRules)
    (hbs : ValidSearch ext.BinarySearch) (hk : ∀ p ∈ l, p.2.RuleName = p.1)
    (h : listLoop ext dc kc l = some kc') : SortedDesc kc'.SortRules := by
  induction l generalizing kc with
  | nil =>
    simp only [listLoop, Option.some.injEq] at h
    subst h
    exact hs
  | cons hd t ih =>
    obtain ⟨k, v⟩ := hd
    have hkv := hk (k, v) (List.mem_cons_self _ _)
    cases hstep : listStep ext dc kc k v with
    | none => simp [listLoop, hstep] at h
    | some kc1 =>
      simp only [listLoop, hstep] at h
      exact ih kc1 (listStep_good ext dc kc kc1 k v hg hkv hstep)
        (listStep_sorted ext dc kc kc1 k v hg hs hbs hkv hstep)
        (fun p hp => hk p (List.mem_cons_of_mem _ hp)) h

theorem listLoop_isSome (ext : Extern) (dc : Nat) (l : List (String × RuleEntity))
    (kc : KnowledgeContext) (hg : Good kc) (hs : SortedDesc kc.SortRules)
    (hbs : ValidSearch ext.BinarySearch) (hk : ∀ p ∈ l, p.2.RuleName = p.1) :
    ∃ kc', listLoop ext dc kc l = some kc' := by
  induction l generalizing kc with
  | nil => exact ⟨kc, rfl⟩
  | cons hd t ih =>
    obtain ⟨k, v⟩ := hd
    have hkv := hk (k, v) (List.mem_cons_self _ _)
    obtain ⟨kc1, hstep⟩ := listStep_isSome ext dc kc k v hg hs hbs hkv
    obtain ⟨kc', h⟩ := ih kc1 (listStep_good ext dc kc kc1 k v hg hkv hstep)
      (listStep_sorted ext dc kc kc1 k v hg hs hbs hkv hstep)
      (fun p hp => hk p (List.mem_cons_of_mem _ hp))
    exact ⟨kc', by simp only [listLoop, hstep, h]⟩

/-- The incremental update of an error-free, non-empty parse result publishes
what the loop on lists computes, and panics exactly when that loop fails. -/
theorem incremental_eq (ext : Extern) (builder : RuleBuilder) (pr : ParseResult)
    (hge : pr.GrammarErrors = []) (hpe : pr.ParseErrors = []) (hne : pr.RuleEntities ≠ [])
    (hk : (GoMap.keys builder.Kc.RuleEntities).Nodup) :
    (∀ kc', listLoop ext builder.Dc builder.Kc pr.RuleEntities = some kc' →
      BuildRuleWithIncremental ext builder pr = ({ builder with Kc := kc' }, Ret.nil)) ∧
    (listLoop ext builder.Dc builder.Kc pr.RuleEntities = none →
      (BuildRuleWithIncremental ext builder pr).2 = Ret.panic) := by
  have hlen : ¬ pr.RuleEntities.length = 0 := by
    simpa [List.length_eq_zero] using hne
  have hview : (MergeState.mk builder.Kc (copyMap builder.Kc.RuleEntities)
      (Slice.copyOf builder.Kc.SortRules)).view = builder.Kc := by
    simp only [MergeState.view, copyMap_eq _ hk, Slice.copyOf_toList]
  obtain ⟨h1, h2⟩ := mergeLoop_view ext builder.Dc pr.RuleEntities
    (MergeState.mk builder.Kc (copyMap builder.Kc.RuleEntities)
      (Slice.copyOf builder.Kc.SortRules)) (Slice.copyOf_WF _)
  rw [hview] at h1 h2
  simp only [BuildRuleWithIncremental, hge, hpe, List.length_nil, gt_iff_lt, lt_self_iff_false,
    if_false, hlen]
  cases hm : mergeLoop ext builder.Dc (MergeState.mk builder.Kc (copyMap builder.Kc.RuleEntities)
      (Slice.copyOf builder.Kc.SortRules)) pr.RuleEntities with
  | error st =>
    have := h2 st hm
    simp [this]
  | ok st =>
    have := h1 st hm
    simp only [this, Option.some.injEq]
    refine ⟨fun kc' hkc => ?_, fun hc => by cases hc⟩
    subst hkc
    rfl

/-! ## Full rebuild -/

theorem SliceStable_perm (l : List RuleEntity) : (SliceStable l).Perm l :=
  List.perm_insertionSort _ l

theorem SliceStable_sorted (l : List RuleEntity) : SortedDesc (SliceStable l) := by
  have htot : IsTotal RuleEntity (fun a b => ¬ less b a) :=
    ⟨fun a b => by unfold less; omega⟩
  have htrans : IsTrans RuleEntity (fun a b => ¬ less b a) :=
    ⟨fun a b c => by unfold less; omega⟩
  have := List.sorted_insertionSort (fun a b : RuleEntity => ¬ less b a) l
  unfold SortedDesc SliceStable
  refine List.Pairwise.imp ?_ this
  intro a b h
  unfold less at h
  omega

theorem fullOrdering_perm (m : GoMap RuleEntity) : (fullOrdering m).Perm (m.map Prod.snd) := by
  unfold fullOrdering
  split
  · exact SliceStable_perm _
  · exact List.Perm.refl _

theorem fullOrdering_sorted (m : GoMap RuleEntity) : SortedDesc (fullOrdering m) := by
  unfold fullOrdering
  split
  · exact SliceStable_sorted _
  · rename_i h
    unfold SortedDesc
    cases hm : m.map Prod.snd with
    | nil => exact List.Pairwise.nil
    | cons a t =>
      cases t with
      | nil => exact List.pairwise_singleton _ _
      | cons b t => simp [hm] at h

/-- The full rebuild of an error-free parse result returns `nil` and publishes
the initialised entities, their stable sort and the index of that sort. -/
theorem fromString_eq (ext : Extern) (builder : RuleBuilder) (pr : ParseResult)
    (hge : pr.GrammarErrors = []) (hpe : pr.ParseErrors = []) :
    BuildRuleFromString ext builder pr =
      ({ builder with
          Kc := { RuleEntities := initialized builder.Dc pr.RuleEntities,
                  SortRules := fullOrdering (initialized builder.Dc pr.RuleEntities),
                  SortRulesIndexMap :=
                    indexLoop 0 (fullOrdering (initialized builder.Dc pr.RuleEntities)) [] } },
        Ret.nil) := by
  have happ := foldl_goAppend ext (initialized builder.Dc pr.RuleEntities) Slice.empty
    (by simp [Slice.empty])
  simp only [Slice.empty, Slice.toList, List.take_nil, List.nil_append, zero_add] at happ
  simp only [BuildRuleFromString, hge, hpe, List.length_nil, gt_iff_lt, lt_self_iff_false,
    if_false, NewKnowledgeContext, fullOrdering, Slice.empty, Slice.toList]
  rw [← initialized, happ.1, happ.2]
  simp

theorem initialized_keys (dc : Nat) (m : GoMap RuleEntity) :
    GoMap.keys (initialized dc m) = GoMap.keys m := by
  simp [initialized, GoMap.keys, Function.comp_def]

theorem initialized_nameKeyed (dc : Nat) (m : GoMap RuleEntity) (h : NameKeyed m) :
    NameKeyed (initialized dc m) := by
  refine ⟨by rw [initialized_keys]; exact h.1, fun p hp => ?_⟩
  obtain ⟨q, hq, rfl⟩ := List.mem_map.1 hp
  exact h.2 q hq

/-- A name-keyed map, any ordering of its entities and the index rebuilt from
that ordering satisfy the carried facts. -/
theorem good_of_perm (R : GoMap RuleEntity) (L : List RuleEntity) (hR : NameKeyed R)
    (hperm : L.Perm (R.map Prod.snd)) :
    Good { RuleEntities := R, SortRules := L, SortRulesIndexMap := indexLoop 0 L [] } := by
  have hkeys : R.map (fun p => p.2.RuleName) = GoMap.keys R := by
    unfold GoMap.keys
    exact List.map_congr_left (fun p hp => hR.2 p hp)
  refine good_rebuild R L ?_ hR.1 ?_
  · rw [(hperm.map RuleEntity.RuleName).nodup_iff, List.map_map]
    have : (RuleEntity.RuleName ∘ Prod.snd) = fun p : String × RuleEntity => p.2.RuleName := rfl
    rw [this, hkeys]
    exact hR.1
  · intro n e
    rw [GoMap.lookup_eq_some_iff R n e hR.1, hperm.mem_iff, List.mem_map]
    constructor
    · intro h
      exact ⟨⟨(n, e), h, rfl⟩, hR.2 (n, e) h⟩
    · rintro ⟨⟨q, hq, rfl⟩, hn⟩
      have : q = (n, q.2) := Prod.ext ((hR.2 q hq).symm.trans hn) rfl
      rw [← this]
      exact hq

theorem nameKeyed_perm (m m' : GoMap RuleEntity) (hp : m'.Perm m) (h : NameKeyed m) :
    NameKeyed m' :=
  ⟨((hp.map Prod.fst).nodup_iff).2 h.1, fun p hp' => h.2 p (hp.mem_iff.1 hp')⟩

/-! ## The reference search is valid -/

theorem scanSearch_aux (l : List RuleEntity) (s : Int) (hs : SortedDesc l) :
    (∀ e ∈ l.take (l.takeWhile (fun e => decide (e.Salience > s))).length, s ≤ e.Salience) ∧
    (∀ e ∈ l.drop (l.takeWhile (fun e => decide (e.Salience > s))).length, e.Salience ≤ s) := by
  induction l with
  | nil => simp
  | cons a t ih =>
    unfold SortedDesc at hs
    rw [List.pairwise_cons] at hs
    by_cases ha : a.Salience > s
    · have := ih hs.2
      simp only [List.takeWhile_cons, ha, decide_True, if_true, List.length_cons,
        List.take_succ_cons, List.mem_cons, List.drop_succ_cons]
      refine ⟨?_, this.2⟩
      rintro e (rfl | he)
      · omega
      · exact this.1 e he
    · simp only [List.takeWhile_cons, ha, decide_False, List.length_nil, List.take_zero,
        List.drop_zero]
      refine ⟨by simp, ?_⟩
      intro e he
      rcases List.mem_cons.1 he with rfl | he
      · omega
      · have := hs.1 e he
        omega

theorem scanSearch_valid : ValidSearch scanSearch := by
  intro l s hs
  have h := scanSearch_aux l s hs
  have hle := (List.takeWhile_sublist (l := l)
    (fun e : RuleEntity => decide (e.Salience > s))).length_le
  have hpos : insertPos (scanSearch l s) =
      ((l.takeWhile (fun e => decide (e.Salience > s))).length : Int) := by
    simp [insertPos, scanSearch]
  rw [hpos]
  refine ⟨by omega, by omega, ?_, ?_⟩
  · simpa using h.1
  · simpa using h.2

/-! ## Updates of one entity -/

theorem listLoop_single (ext : Extern) (dc : Nat) (kc : KnowledgeContext) (k : String)
    (v : RuleEntity) : listLoop ext dc kc [(k, v)] = listStep ext dc kc k v := by
  simp only [listLoop]
  cases listStep ext dc kc k v <;> rfl

theorem length_store_of_not_mem {V : Type} (m : GoMap V) (k : String) (v : V)
    (h : k ∉ GoMap.keys m) : (GoMap.store m k v).length = m.length + 1 := by
  rw [GoMap.store_of_not_mem m k v h]
  simp

/-! ## The registry after the loop -/

/-- Every successful step stores the initialised entity under its key. -/
theorem listStep_reg (ext : Extern) (dc : Nat) (kc kc' : KnowledgeContext) (k : String)
    (v0 : RuleEntity) (h : listStep ext dc kc k v0 = some kc') :
    kc'.RuleEntities = GoMap.store kc.RuleEntities k (Initialize v0 dc) := by
  unfold listStep at h
  simp only at h
  split at h
  · split at h
    · split at h
      · cases h; rfl
      · cases h
    · split at h
      · split at h
        · cases h; rfl
        · cases h
      · cases h
  · split at h
    · cases h; rfl
    · cases h

theorem listLoop_reg (ext : Extern) (dc : Nat) (l : List (String × RuleEntity))
    (kc kc' : KnowledgeContext) (hk : (GoMap.keys l).Nodup)
    (h : listLoop ext dc kc l = some kc') (n : String) :
    GoMap.lookup kc'.RuleEntities n =
      if n ∈ GoMap.keys l then (GoMap.lookup l n).map (fun e => Initialize e dc)
      else GoMap.lookup kc.RuleEntities n := by
  induction l generalizing kc with
  | nil =>
    simp only [listLoop, Option.some.injEq] at h
    subst h
    simp [GoMap.keys]
  | cons hd t ih =>
    obtain ⟨k, v⟩ := hd
    simp only [GoMap.keys, List.map_cons, List.nodup_cons] at hk
    cases hstep : listStep ext dc kc k v with
    | none => simp [listLoop, hstep] at h
    | some kc1 =>
      simp only [listLoop, hstep] at h
      rw [ih kc1 hk.2 h, listStep_reg ext dc kc kc1 k v hstep, GoMap.lookup_store]
      by_cases hn : k = n
      · subst hn
        have h1 : k ∉ GoMap.keys t := hk.1
        have h2 : k ∈ GoMap.keys ((k, v) :: t) := List.mem_cons_self _ _
        rw [if_neg h1, if_pos h2]
        simp [GoMap.lookup]
      · have hn' : ¬ n = k := fun e => hn e.symm
        have hl : GoMap.lookup ((k, v) :: t) n = GoMap.lookup t n := by
          simp [GoMap.lookup, hn]
        rw [hl]
        by_cases hmem : n ∈ GoMap.keys t
        · have h2 : n ∈ GoMap.keys ((k, v) :: t) := List.mem_cons_of_mem _ hmem
          rw [if_pos hmem, if_pos h2]
        · have h2 : n ∉ GoMap.keys ((k, v) :: t) := by
            intro hc
            rcases List.mem_cons.1 hc with hc | hc
            · exact hn' hc
            · exact hmem hc
          rw [if_neg hmem, if_neg h2]
          simp [hn]

/-- A loop over entities that all exist with an unchanged salience succeeds
without any search, keeps the index and keeps the name at every position. -/
theorem listLoop_same (ext : Extern) (dc : Nat) (l : List (String × RuleEntity))
    (kc : KnowledgeContext) (hg : Good kc) (hk : (GoMap.keys l).Nodup)
    (hnk : ∀ p ∈ l, p.2.RuleName = p.1)
    (hall : ∀ p ∈ l, ∃ old, GoMap.lookup kc.RuleEntities p.1 = some old ∧
      p.2.Salience = old.Salience) :
    ∃ kc', listLoop ext dc kc l = some kc' ∧
      kc'.SortRulesIndexMap = kc.SortRulesIndexMap ∧
      kc'.SortRules.map RuleEntity.RuleName = kc.SortRules.map RuleEntity.RuleName := by
  induction l generalizing kc with
  | nil => exact ⟨kc, rfl, rfl, rfl⟩
  | cons hd t ih =>
    obtain ⟨k, v⟩ := hd
    simp only [GoMap.keys, List.map_cons, List.nodup_cons] at hk
    have hkv : v.RuleName = k := hnk (k, v) (List.mem_cons_self _ _)
    obtain ⟨old, hold, hsal⟩ := hall (k, v) (List.mem_cons_self _ _)
    obtain ⟨i, hi, hname, hidx, hlt⟩ := index_of_good hg k old hold
    have hstep := listStep_same ext dc kc k v old i hold (by rw [hkv]; exact hidx) hlt hsal
    have hg1 := listStep_good ext dc kc _ k v hg hkv hstep
    obtain ⟨kc', hloop, hI, hN⟩ := ih _ hg1 hk.2 (fun p hp => hnk p (List.mem_cons_of_mem _ hp))
      (by
        intro p hp
        obtain ⟨o, ho, hs⟩ := hall p (List.mem_cons_of_mem _ hp)
        refine ⟨o, ?_, hs⟩
        have hne : ¬ k = p.1 := by
          intro e
          exact hk.1 (by rw [e]; exact List.mem_map_of_mem Prod.fst hp)
        simp only [GoMap.lookup_store, hne, if_false]
        exact ho)
    refine ⟨kc', by simp only [listLoop, hstep, hloop], hI, ?_⟩
    rw [hN]
    exact map_set_of_eq RuleEntity.RuleName _ _ _ _ hi (hkv.trans hname.symm)

theorem lookup_of_nameKeyed (l : GoMap RuleEntity) (hk : (GoMap.keys l).Nodup)
    (p : String × RuleEntity) (hp : p ∈ l) : GoMap.lookup l p.1 = some p.2 :=
  GoMap.lookup_of_mem l p.1 p.2 hk hp

/-! ## Failing builds -/

theorem length_pos_of_ne_nil {α : Type} (l : List α) (h : l ≠ []) : l.length > 0 :=
  List.length_pos.2 h

/-- The full rebuild of a parse result with errors returns the rendering of
the grammar errors if there are any, else that of the semantic errors, and
leaves the builder as it was. -/
theorem fromString_error (ext : Extern) (builder : RuleBuilder) (pr : ParseResult)
    (h : pr.GrammarErrors ≠ [] ∨ pr.ParseErrors ≠ []) :
    BuildRuleFromString ext builder pr =
      (builder, Ret.error (render
        (if pr.GrammarErrors ≠ [] then pr.GrammarErrors else pr.ParseErrors))) := by
  by_cases hg : pr.GrammarErrors = []
  · have hp : pr.ParseErrors.length > 0 :=
      length_pos_of_ne_nil _ (h.resolve_left (fun c => c hg))
    simp only [BuildRuleFromString, hg, List.length_nil, gt_iff_lt, lt_self_iff_false,
      if_false, ne_eq, not_true_eq_false]
    rw [if_pos hp]
  · have hg' : pr.GrammarErrors.length > 0 := length_pos_of_ne_nil _ hg
    simp only [BuildRuleFromString, ne_eq, hg, not_false_eq_true, if_true]
    rw [if_pos hg']

/-- The same for the incremental update. -/
theorem incremental_error (ext : Extern) (builder : RuleBuilder) (pr : ParseResult)
    (h : pr.GrammarErrors ≠ [] ∨ pr.ParseErrors ≠ []) :
    BuildRuleWithIncremental ext builder pr =
      (builder, Ret.error (render
        (if pr.GrammarErrors ≠ [] then pr.GrammarErrors else pr.ParseErrors))) := by
  by_cases hg : pr.GrammarErrors = []
  · have hp : pr.ParseErrors.length > 0 :=
      length_pos_of_ne_nil _ (h.resolve_left (fun c => c hg))
    simp only [BuildRuleWithIncremental, hg, List.length_nil, gt_iff_lt, lt_self_iff_false,
      if_false, ne_eq, not_true_eq_false]
    rw [if_pos hp]
  · have hg' : pr.GrammarErrors.length > 0 := length_pos_of_ne_nil _ hg
    simp only [BuildRuleWithIncremental, ne_eq, hg, not_false_eq_true, if_true]
    rw [if_pos hg']

theorem render_data (errs : List String) :
    (render errs).data = '[' :: ((" ".intercalate errs).data ++ [']']) := by
  simp [render, String.data_append]

/-! ## Successful updates, and the keys of a rebuilt index -/

/-- An incremental update that returns `nil` had an error-free, non-empty
parse result and published what the loop on lists computed. -/
theorem incremental_of_nil (ext : Extern) (builder : RuleBuilder) (pr : ParseResult)
    (hk : (GoMap.keys builder.Kc.RuleEntities).Nodup)
    (hsucc : (BuildRuleWithIncremental ext builder pr).2 = Ret.nil) :
    ∃ kc', listLoop ext builder.Dc builder.Kc pr.RuleEntities = some kc' ∧
      BuildRuleWithIncremental ext builder pr = ({ builder with Kc := kc' }, Ret.nil) := by
  by_cases herr : pr.GrammarErrors ≠ [] ∨ pr.ParseErrors ≠ []
  · rw [incremental_error ext builder pr herr] at hsucc
    cases hsucc
  · have hge : pr.GrammarErrors = [] := by
      by_contra hc
      exact herr (Or.inl hc)
    have hpe : pr.ParseErrors = [] := by
      by_contra hc
      exact herr (Or.inr hc)
    have hne : pr.RuleEntities ≠ [] := by
      intro hc
      simp [BuildRuleWithIncremental, hge, hpe, hc] at hsucc
    obtain ⟨h1, h2⟩ := incremental_eq ext builder pr hge hpe hne hk
    cases hl : listLoop ext builder.Dc builder.Kc pr.RuleEntities with
    | none =>
      rw [h2 hl] at hsucc
      cases hsucc
    | some kc' => exact ⟨kc', rfl, h1 kc' hl⟩

theorem mem_keys_indexLoop (l : List RuleEntity) (k : Nat) (m : GoMap Nat) (n : String) :
    n ∈ GoMap.keys (indexLoop k l m) ↔ n ∈ GoMap.keys m ∨ n ∈ l.map RuleEntity.RuleName := by
  induction l generalizing k m with
  | nil => simp [indexLoop]
  | cons v t ih =>
    simp only [indexLoop, List.map_cons, List.mem_cons]
    rw [ih, GoMap.mem_keys_store]
    constructor
    · rintro ((h | h) | h)
      · exact Or.inr (Or.inl h)
      · exact Or.inl h
      · exact Or.inr (Or.inr h)
    · rintro (h | h | h)
      · exact Or.inl (Or.inr h)
      · exact Or.inl (Or.inl h)
      · exact Or.inr h

/-! ## Published contexts -/

theorem good_empty : Good NewKnowledgeContext := by
  refine ⟨?_, ?_, ?_, ?_, ?_⟩ <;> simp [NewKnowledgeContext, GoMap.keys, GoMap.lookup]

/-- Every published context has distinct names in its ordering, a registry
that holds exactly the entities of the ordering under their names, and an index
that holds exactly the positions of the names, whatever the search returns. -/
theorem published_good (ext : Extern) (b : RuleBuilder) (h : Published ext b) : Good b.Kc := by
  induction h with
  | new dc => exact good_empty
  | full b pr _ hnk _ ih =>
    by_cases herr : pr.GrammarErrors ≠ [] ∨ pr.ParseErrors ≠ []
    · rw [fromString_error ext b pr herr]
      exact ih
    · have hge : pr.GrammarErrors = [] := by
        by_contra hc
        exact herr (Or.inl hc)
      have hpe : pr.ParseErrors = [] := by
        by_contra hc
        exact herr (Or.inr hc)
      rw [fromString_eq ext b pr hge hpe]
      exact good_of_perm _ _ (initialized_nameKeyed b.Dc _ hnk) (fullOrdering_perm _)
  | incremental b pr _ hnk hnp ih =>
    by_cases herr : pr.GrammarErrors ≠ [] ∨ pr.ParseErrors ≠ []
    · rw [incremental_error ext b pr herr]
      exact ih
    · have hge : pr.GrammarErrors = [] := by
        by_contra hc
        exact herr (Or.inl hc)
      have hpe : pr.ParseErrors = [] := by
        by_contra hc
        exact herr (Or.inr hc)
      by_cases hne : pr.RuleEntities = []
      · have : BuildRuleWithIncremental ext b pr =
            (b, Ret.error "no rules need to update or add.") := by
          simp [BuildRuleWithIncremental, hge, hpe, hne]
        rw [this]
        exact ih
      · obtain ⟨h1, h2⟩ := incremental_eq ext b pr hge hpe hne ih.regKeys
        cases hl : listLoop ext b.Dc b.Kc pr.RuleEntities with
        | none => exact absurd (h2 hl) hnp
        | some kc' =>
          rw [h1 kc' hl]
          exact listLoop_good ext b.Dc pr.RuleEntities b.Kc kc' ih hnk.2 hl

/-! ## When the builds return an error -/

/-- With an error-free, non-empty parse result the incremental update returns
`nil` or panics. -/
theorem incremental_nil_or_panic (ext : Extern) (builder : RuleBuilder) (pr : ParseResult)
    (hge : pr.GrammarErrors = []) (hpe : pr.ParseErrors = []) (hne : pr.RuleEntities ≠ []) :
    (BuildRuleWithIncremental ext builder pr).2 = Ret.nil ∨
    (BuildRuleWithIncremental ext builder pr).2 = Ret.panic := by
  have hlen : ¬ pr.RuleEntities.length = 0 := by
    simpa [List.length_eq_zero] using hne
  simp only [BuildRuleWithIncremental, hge, hpe, List.length_nil, gt_iff_lt, lt_self_iff_false,
    if_false, hlen]
  split
  · exact Or.inr rfl
  · exact Or.inl rfl

theorem incremental_empty (ext : Extern) (builder : RuleBuilder) (pr : ParseResult)
    (hge : pr.GrammarErrors = []) (hpe : pr.ParseErrors = []) (hempty : pr.RuleEntities = []) :
    BuildRuleWithIncremental ext builder pr =
      (builder, Ret.error "no rules need to update or add.") := by
  simp [BuildRuleWithIncremental, hge, hpe, hempty]

/-! ## Index safety -/

theorem scanSearch_inRange : InRangeSearch scanSearch := by
  intro l s
  have hle := (List.takeWhile_sublist (l := l)
    (fun e : RuleEntity => decide (e.Salience > s))).length_le
  have hpos : insertPos (scanSearch l s) =
      ((l.takeWhile (fun e => decide (e.Salience > s))).length : Int) := by
    simp [insertPos, scanSearch]
  rw [hpos]
  constructor <;> omega

/-- With a search whose position lies within the slice, a step on a state with
the carried facts does not panic. -/
theorem listStep_isSome_inRange (ext : Extern) (dc : Nat) (kc : KnowledgeContext) (k : String)
    (v0 : RuleEntity) (hg : Good kc) (hbs : InRangeSearch ext.BinarySearch)
    (hk : v0.RuleName = k) : ∃ kc', listStep ext dc kc k v0 = some kc' := by
  subst hk
  cases hl : GoMap.lookup kc.RuleEntities v0.RuleName with
  | none =>
    rw [listStep_new ext dc kc _ v0 hl, if_pos (hbs kc.SortRules v0.Salience)]
    exact ⟨_, rfl⟩
  | some vm =>
    obtain ⟨i, hi, hname, hidx, hlt⟩ := index_of_good hg _ vm hl
    by_cases hsal : v0.Salience = vm.Salience
    · rw [listStep_same ext dc kc _ v0 vm i hl hidx hlt hsal]
      exact ⟨_, rfl⟩
    · rw [listStep_changed ext dc kc _ v0 vm i hl hidx hlt hsal,
        if_pos (hbs (kc.SortRules.eraseIdx i) v0.Salience)]
      exact ⟨_, rfl⟩

theorem mergeStep_isSome_inRange (ext : Extern) (dc : Nat) (st : MergeState) (k : String)
    (v0 : RuleEntity) (hg : Good st.view) (hwf : st.newSortRules.WF)
    (hbs : InRangeSearch ext.BinarySearch) (hk : v0.RuleName = k) :
    ∃ st', mergeStep ext dc st k v0 = some st' ∧ Good st'.view ∧ st'.newSortRules.WF := by
  obtain ⟨hview, hframe⟩ := mergeStep_view ext dc st k v0 hwf
  obtain ⟨kc', hkc⟩ := listStep_isSome_inRange ext dc st.view k v0 hg hbs hk
  cases hstep : mergeStep ext dc st k v0 with
  | none =>
    rw [hstep, hkc] at hview
    cases hview
  | some st' =>
    rw [hstep, hkc] at hview
    simp only [Option.map_some', Option.some.injEq] at hview
    refine ⟨st', rfl, ?_, (hframe st' hstep).1⟩
    rw [hview]
    exact listStep_good ext dc st.view kc' k v0 hg hk hkc

/-- The state reached after any number of entries has the carried facts. -/
theorem mergeLoop_inRange (ext : Extern) (dc : Nat) (l : List (String × RuleEntity))
    (st : MergeState) (hg : Good st.view) (hwf : st.newSortRules.WF)
    (hbs : InRangeSearch ext.BinarySearch) (hk : ∀ p ∈ l, p.2.RuleName = p.1) :
    ∃ st', mergeLoop ext dc st l = Except.ok st' ∧ Good st'.view ∧ st'.newSortRules.WF := by
  induction l generalizing st with
  | nil => exact ⟨st, rfl, hg, hwf⟩
  | cons hd t ih =>
    obtain ⟨k, v⟩ := hd
    obtain ⟨st1, hstep, hg1, hwf1⟩ := mergeStep_isSome_inRange ext dc st k v hg hwf hbs
      (hk (k, v) (List.mem_cons_self _ _))
    obtain ⟨st', hloop, hg', hwf'⟩ := ih st1 hg1 hwf1
      (fun p hp => hk p (List.mem_cons_of_mem _ hp))
    exact ⟨st', by simp only [mergeLoop, hstep, hloop], hg', hwf'⟩

theorem mergeStart_view (builder : RuleBuilder)
    (hk : (GoMap.keys builder.Kc.RuleEntities).Nodup) :
    (mergeStart builder).view = builder.Kc := by
  simp only [mergeStart, MergeState.view, copyMap_eq _ hk, Slice.copyOf_toList]

theorem incremental_of_mergeLoop (ext : Extern) (builder : RuleBuilder) (pr : ParseResult)
    (hge : pr.GrammarErrors = []) (hpe : pr.ParseErrors = []) (hne : pr.RuleEntities ≠ [])
    (st : MergeState)
    (h : mergeLoop ext builder.Dc (mergeStart builder) pr.RuleEntities = Except.ok st) :
    BuildRuleWithIncremental ext builder pr = ({ builder with Kc := st.view }, Ret.nil) := by
  have hlen : ¬ pr.RuleEntities.length = 0 := by
    simpa [List.length_eq_zero] using hne
  unfold mergeStart at h
  simp only [BuildRuleWithIncremental, hge, hpe, List.length_nil, gt_iff_lt, lt_self_iff_false,
    if_false, hlen, h, MergeState.view]

/-! ## Repeating an update -/

theorem GoMap.store_of_lookup {V : Type} (m : GoMap V) (k : String) (v : V)
    (h : GoMap.lookup m k = some v) : GoMap.store m k v = m := by
  induction m with
  | nil => simp [GoMap.lookup] at h
  | cons hd t ih =>
    obtain ⟨k', v'⟩ := hd
    by_cases hk : k' = k
    · subst hk
      simp only [GoMap.lookup, if_true, Option.some.injEq] at h
      subst h
      simp [GoMap.store]
    · simp only [GoMap.lookup, hk, if_false] at h
      simp [GoMap.store, hk, ih h]

theorem set_of_getElem? (l : List RuleEntity) (i : Nat) (v : RuleEntity)
    (h : l[i]? = some v) : l.set i v = l := by
  induction l generalizing i with
  | nil => simp
  | cons a t ih =>
    cases i with
    | zero =>
      simp only [List.getElem?_cons_zero, Option.some.injEq] at h
      subst h
      simp
    | succ i =>
      simp only [List.getElem?_cons_succ] at h
      simp [ih i h]

/-- Merging entries that the registry already holds, initialised, changes
nothing. -/
theorem listLoop_idem (ext : Extern) (dc : Nat) (l : List (String × RuleEntity))
    (kc : KnowledgeContext) (hg : Good kc) (hnk : ∀ p ∈ l, p.2.RuleName = p.1)
    (hall : ∀ p ∈ l, GoMap.lookup kc.RuleEntities p.1 = some (Initialize p.2 dc)) :
    listLoop ext dc kc l = some kc := by
  induction l with
  | nil => rfl
  | cons hd t ih =>
    obtain ⟨k, v⟩ := hd
    have hkv : v.RuleName = k := hnk (k, v) (List.mem_cons_self _ _)
    have hold := hall (k, v) (List.mem_cons_self _ _)
    obtain ⟨i, hi, -, hidx, hlt⟩ := index_of_good hg k _ hold
    have hstep := listStep_same ext dc kc k v (Initialize v dc) i hold
      (by rw [hkv]; exact hidx) hlt rfl
    rw [set_of_getElem? _ _ _ hi, GoMap.store_of_lookup _ _ _ hold] at hstep
    simp only [listLoop, hstep]
    exact ih (fun p hp => hnk p (List.mem_cons_of_mem _ hp))
      (fun p hp => hall p (List.mem_cons_of_mem _ hp))

/-! ## Merging new names into a context, and sorted sequences of distinct saliences -/

theorem initialized_cons (dc : Nat) (k : String) (v : RuleEntity) (t : GoMap RuleEntity) :
    initialized dc ((k, v) :: t) = (k, Initialize v dc) :: initialized dc t := rfl

/-- A loop over names that are all new appends the initialised entries to the
registry, splices the entities into the ordering, keeps it sorted, and leaves
the index rebuilt from the final ordering. -/
theorem listLoop_all_new (ext : Extern) (dc : Nat) (l : List (String × RuleEntity))
    (kc : KnowledgeContext) (hk : (GoMap.keys l).Nodup)
    (hnew : ∀ k ∈ GoMap.keys l, GoMap.lookup kc.RuleEntities k = none)
    (hs : SortedDesc kc.SortRules) (hbs : ValidSearch ext.BinarySearch) :
    ∃ kc', listLoop ext dc kc l = some kc' ∧
      kc'.RuleEntities = kc.RuleEntities ++ initialized dc l ∧
      kc'.SortRules.Perm (kc.SortRules ++ (initialized dc l).map Prod.snd) ∧
      SortedDesc kc'.SortRules ∧
      (l ≠ [] → kc'.SortRulesIndexMap = indexLoop 0 kc'.SortRules []) := by
  induction l generalizing kc with
  | nil => exact ⟨kc, rfl, by simp [initialized], by simp [initialized], hs, fun h => absurd rfl h⟩
  | cons hd t ih =>
    obtain ⟨k, v⟩ := hd
    simp only [GoMap.keys, List.map_cons, List.nodup_cons] at hk
    have hlk : GoMap.lookup kc.RuleEntities k = none := hnew k (List.mem_cons_self _ _)
    have hp := hbs kc.SortRules v.Salience hs
    have hstep := listStep_new ext dc kc k v hlk
    rw [if_pos ⟨hp.1, hp.2.1⟩] at hstep
    have hs1 := sorted_insertAt kc.SortRules _ (Initialize v dc) hs hp
    have hnew1 : ∀ k' ∈ GoMap.keys t,
        GoMap.lookup (GoMap.store kc.RuleEntities k (Initialize v dc)) k' = none := by
      intro k' hk'
      have hne : ¬ k = k' := by
        rintro rfl
        exact hk.1 hk'
      simp only [GoMap.lookup_store, hne, if_false]
      exact hnew k' (List.mem_cons_of_mem _ hk')
    obtain ⟨kc', hloop, hR, hL, hS, hI⟩ := ih
      { RuleEntities := GoMap.store kc.RuleEntities k (Initialize v dc),
        SortRules := insertAt kc.SortRules
          (insertPos (ext.BinarySearch kc.SortRules v.Salience)).toNat (Initialize v dc),
        SortRulesIndexMap := indexLoop 0 (insertAt kc.SortRules
          (insertPos (ext.BinarySearch kc.SortRules v.Salience)).toNat (Initialize v dc)) [] }
      hk.2 hnew1 hs1
    refine ⟨kc', by simp only [listLoop, hstep, hloop], ?_, ?_, hS, fun _ => ?_⟩
    · rw [hR, initialized_cons]
      simp only
      rw [GoMap.store_of_not_mem _ _ _ ((GoMap.lookup_eq_none_iff _ _).1 hlk)]
      rw [List.append_assoc, List.singleton_append]
    · refine hL.trans ?_
      simp only [initialized_cons, List.map_cons]
      refine ((insertAt_perm kc.SortRules _ (Initialize v dc)).append_right _).trans ?_
      simp only [List.cons_append]
      exact List.perm_middle.symm
    · by_cases ht : t = []
      · subst ht
        simp only [listLoop, Option.some.injEq] at hloop
        rw [← hloop]
      · exact hI ht

/-- Two sequences with the same entities, both sorted by non-increasing
salience, are equal when the saliences are pairwise distinct. -/
theorem sorted_perm_unique (l₁ l₂ : List RuleEntity) (hp : l₁.Perm l₂)
    (h₁ : SortedDesc l₁) (h₂ : SortedDesc l₂)
    (hd : (l₂.map RuleEntity.Salience).Nodup) : l₁ = l₂ := by
  have hd₁ : (l₁.map RuleEntity.Salience).Nodup :=
    ((hp.map RuleEntity.Salience).nodup_iff).2 hd
  have strict : ∀ l : List RuleEntity, SortedDesc l → (l.map RuleEntity.Salience).Nodup →
      l.Pairwise (fun a b => b.Salience < a.Salience) := by
    intro l hs hn
    unfold SortedDesc at hs
    rw [List.Nodup, List.pairwise_map] at hn
    refine (hs.and hn).imp ?_
    rintro a b ⟨hle, hne⟩
    omega
  have hanti : IsAntisymm RuleEntity (fun a b => b.Salience < a.Salience) :=
    ⟨fun a b hab hba => by omega⟩
  exact List.eq_of_perm_of_sorted hp (strict l₁ h₁ hd₁) (strict l₂ h₂ hd)

theorem lookup_perm {V : Type} (m₁ m₂ : GoMap V) (hp : m₁.Perm m₂)
    (hn : (GoMap.keys m₁).Nodup) (n : String) : GoMap.lookup m₁ n = GoMap.lookup m₂ n := by
  have hn₂ : (GoMap.keys m₂).Nodup := ((hp.map Prod.fst).nodup_iff).1 hn
  apply Option.ext
  intro v
  simp only [Option.mem_def]
  rw [GoMap.lookup_eq_some_iff m₁ n v hn, GoMap.lookup_eq_some_iff m₂ n v hn₂]
  exact hp.mem_iff

/-! ## The full rebuild sorts stably -/

theorem withSalience_cons (s : Int) (a : RuleEntity) (l : List RuleEntity) :
    withSalience s (a :: l) =
      if a.Salience = s then a :: withSalience s l else withSalience s l := by
  unfold withSalience
  rw [List.filter_cons]
  by_cases h : a.Salience = s <;> simp [h]

theorem withSalience_orderedInsert (s : Int) (a : RuleEntity) (l : List RuleEntity) :
    withSalience s (l.orderedInsert (fun a b => ¬ less b a) a) =
      if a.Salience = s then a :: withSalience s l else withSalience s l := by
  induction l with
  | nil =>
    rw [List.orderedInsert_nil, withSalience_cons]
  | cons b t ih =>
    simp only [List.orderedInsert]
    by_cases hab : ¬ less b a
    · rw [if_pos hab, withSalience_cons]
    · rw [if_neg hab, withSalience_cons, ih, withSalience_cons]
      have hlt : b.Salience > a.Salience := by
        unfold less at hab
        omega
      by_cases hb : b.Salience = s
      · have ha : ¬ a.Salience = s := by omega
        simp [hb, ha]
      · simp [hb]

theorem withSalience_SliceStable (s : Int) (l : List RuleEntity) :
    withSalience s (SliceStable l) = withSalience s l := by
  induction l with
  | nil => rfl
  | cons a t ih =>
    unfold SliceStable at ih ⊢
    simp only [List.insertionSort]
    rw [withSalience_orderedInsert, ih, withSalience_cons]

theorem fullOrdering_stable (m : GoMap RuleEntity) :
    IsStableSortDesc (m.map Prod.snd) (fullOrdering m) := by
  refine ⟨fullOrdering_perm m, fullOrdering_sorted m, fun s => ?_⟩
  unfold fullOrdering
  split
  · exact withSalience_SliceStable s _
  · rfl

theorem mem_withSalience (s : Int) (l : List RuleEntity) (e : RuleEntity) :
    e ∈ withSalience s l ↔ e ∈ l ∧ e.Salience = s := by
  simp [withSalience]

/-- Two sequences sorted by non-increasing salience that hold the same
entities of every salience, in the same order, are equal. -/
theorem stable_unique (l₁ l₂ : List RuleEntity) (h₁ : SortedDesc l₁) (h₂ : SortedDesc l₂)
    (h : ∀ s, withSalience s l₁ = withSalience s l₂) : l₁ = l₂ := by
  induction l₁ generalizing l₂ with
  | nil =>
    cases l₂ with
    | nil => rfl
    | cons b t =>
      have := h b.Salience
      simp [withSalience] at this
  | cons a t₁ ih =>
    cases l₂ with
    | nil =>
      have := h a.Salience
      simp [withSalience] at this
    | cons b t₂ =>
      unfold SortedDesc at h₁ h₂
      rw [List.pairwise_cons] at h₁ h₂
      have ha : a ∈ b :: t₂ := by
        have : a ∈ withSalience a.Salience (a :: t₁) :=
          (mem_withSalience _ _ _).2 ⟨List.mem_cons_self _ _, rfl⟩
        rw [h a.Salience] at this
        exact ((mem_withSalience _ _ _).1 this).1
      have hb : b ∈ a :: t₁ := by
        have : b ∈ withSalience b.Salience (b :: t₂) :=
          (mem_withSalience _ _ _).2 ⟨List.mem_cons_self _ _, rfl⟩
        rw [← h b.Salience] at this
        exact ((mem_withSalience _ _ _).1 this).1
      have hle₁ : a.Salience ≤ b.Salience := by
        rcases List.mem_cons.1 ha with rfl | ha
        · exact le_refl _
        · exact h₂.1 a ha
      have hle₂ : b.Salience ≤ a.Salience := by
        rcases List.mem_cons.1 hb with rfl | hb
        · exact le_refl _
        · exact h₁.1 b hb
      have hsal : b.Salience = a.Salience := le_antisymm hle₂ hle₁
      have hhead := h a.Salience
      rw [withSalience_cons, withSalience_cons, if_pos rfl, if_pos hsal] at hhead
      have hab : a = b := (List.cons.inj hhead).1
      subst hab
      congr 1
      refine ih t₂ h₁.2 h₂.2 (fun s => ?_)
      have hs := h s
      rw [withSalience_cons, withSalience_cons] at hs
      by_cases hc : a.Salience = s
      · rw [if_pos hc, if_pos hc] at hs
        exact (List.cons.inj hs).2
      · rw [if_neg hc, if_neg hc] at hs
        exact hs

/-- Over the six enumeration orders of the rules A(10), B(5), C(5), the full
build publishes `[A, B, C]` or `[A, C, B]`, with the matching index. -/
theorem fullBuild_ABC_orders :
    ∀ enum ∈ List.permutations' parseABC.RuleEntities,
      ((BuildRuleFromString refExtern builderABC
          { parseABC with RuleEntities := enum }).1.Kc.SortRules.map RuleEntity.RuleName =
          ["A", "B", "C"] ∧
        (BuildRuleFromString refExtern builderABC
          { parseABC with RuleEntities := enum }).1.Kc.SortRulesIndexMap =
          [("A", 0), ("B", 1), ("C", 2)]) ∨
      ((BuildRuleFromString refExtern builderABC
          { parseABC with RuleEntities := enum }).1.Kc.SortRules.map RuleEntity.RuleName =
          ["A", "C", "B"] ∧
        (BuildRuleFromString refExtern builderABC
          { parseABC with RuleEntities := enum }).1.Kc.SortRulesIndexMap =
          [("A", 0), ("C", 1), ("B", 2)]) := by
  decide

/-! ## The placement among equal saliences is the one of the search -/

theorem scanSearchAfter_aux (l : List RuleEntity) (s : Int) (hs : SortedDesc l) :
    (∀ e ∈ l.take (l.takeWhile (fun e => decide (e.Salience ≥ s))).length, s ≤ e.Salience) ∧
    (∀ e ∈ l.drop (l.takeWhile (fun e => decide (e.Salience ≥ s))).length, e.Salience ≤ s) := by
  induction l with
  | nil => simp
  | cons a t ih =>
    unfold SortedDesc at hs
    rw [List.pairwise_cons] at hs
    by_cases ha : a.Salience ≥ s
    · have := ih hs.2
      simp only [List.takeWhile_cons, ha, decide_True, if_true, List.length_cons,
        List.take_succ_cons, List.mem_cons, List.drop_succ_cons]
      refine ⟨?_, this.2⟩
      rintro e (rfl | he)
      · omega
      · exact this.1 e he
    · simp only [List.takeWhile_cons, ha, decide_False, List.length_nil, List.take_zero,
        List.drop_zero]
      refine ⟨by simp, ?_⟩
      intro e he
      rcases List.mem_cons.1 he with rfl | he
      · omega
      · have := hs.1 e he
        omega

theorem scanSearchAfter_valid : ValidSearch scanSearchAfter := by
  intro l s hs
  have h := scanSearchAfter_aux l s hs
  have hle := (List.takeWhile_sublist (l := l)
    (fun e : RuleEntity => decide (e.Salience ≥ s))).length_le
  have hpos : insertPos (scanSearchAfter l s) =
      ((l.takeWhile (fun e => decide (e.Salience ≥ s))).length : Int) := by
    simp [insertPos, scanSearchAfter]
  rw [hpos]
  refine ⟨by omega, by omega, ?_, ?_⟩
  · simpa using h.1
  · simpa using h.2

theorem scanSearchMixed_valid : ValidSearch scanSearchMixed := by
  intro l s hs
  unfold scanSearchMixed
  split
  · exact scanSearch_valid l s hs
  · exact scanSearchAfter_valid l s hs

/-- The update places a new rule where the search says: among entries of equal
salience, `scanSearch` puts D(5) before B and C, `scanSearchAfter` puts it after
them, and `scanSearchMixed`, which is valid as well, puts D(5) after them but
puts E(10) before A. -/
theorem placement_follows_search :
    (BuildRuleWithIncremental refExtern builderABC
      { parseABC with RuleEntities := [("D", mkRule "D" 5 4)] }).1.Kc.SortRules.map
        RuleEntity.RuleName = ["A", "D", "B", "C"] ∧
    (BuildRuleWithIncremental { refExtern with BinarySearch := scanSearchAfter } builderABC
      { parseABC with RuleEntities := [("D", mkRule "D" 5 4)] }).1.Kc.SortRules.map
        RuleEntity.RuleName = ["A", "B", "C", "D"] ∧
    (BuildRuleWithIncremental { refExtern with BinarySearch := scanSearchMixed } builderABC
      { parseABC with RuleEntities := [("D", mkRule "D" 5 4)] }).1.Kc.SortRules.map
        RuleEntity.RuleName = ["A", "B", "C", "D"] ∧
    (BuildRuleWithIncremental { refExtern with BinarySearch := scanSearchMixed } builderABC
      { parseABC with RuleEntities := [("E", mkRule "E" 10 4)] }).1.Kc.SortRules.map
        RuleEntity.RuleName = ["E", "A", "B", "C"] := by
  decide

/-! ## The properties of the specification -/

/-- C1: for a parse result without grammar or semantic errors whose entities
are stored under their own `RuleName`, and for every order `enum` in which the
entity map is enumerated, `BuildRuleFromString` returns `nil` and publishes a
context in which the registry, the ordering and the index have the same size,
the ordering is sorted by non-increasing salience, and for every name `n` of the
registry `SortRules[SortRulesIndexMap[n]]` is `RuleEntities[n]` (`KcInv`); the
published maps are name-keyed (`KcWf`). -/
theorem C1_full_build_invariant (ext : Extern) (builder : RuleBuilder) (pr : ParseResult)
    (enum : GoMap RuleEntity) (hge : pr.GrammarErrors = []) (hpe : pr.ParseErrors = [])
    (hnk : NameKeyed pr.RuleEntities) (henum : enum.Perm pr.RuleEntities) :
    (BuildRuleFromString ext builder { pr with RuleEntities := enum }).2 = Ret.nil ∧
    KcInv (BuildRuleFromString ext builder { pr with RuleEntities := enum }).1.Kc ∧
    KcWf (BuildRuleFromString ext builder { pr with RuleEntities := enum }).1.Kc := by
  rw [fromString_eq ext builder { pr with RuleEntities := enum } hge hpe]
  refine ⟨rfl, ?_⟩
  have hk := initialized_nameKeyed builder.Dc enum (nameKeyed_perm _ _ henum hnk)
  exact (good_of_perm _ _ hk (fullOrdering_perm _)).toInv (fullOrdering_sorted _)

/-- C1 at the rules A(10), B(5), C(5), enumerated as C, A, B. -/
theorem C1_full_build_invariant_witness :
    (BuildRuleFromString refExtern (NewRuleBuilder 0)
      { parseABC with RuleEntities :=
          [("C", mkRule "C" 5 3), ("A", mkRule "A" 10 1), ("B", mkRule "B" 5 2)] }).2 = Ret.nil ∧
    KcInv (BuildRuleFromString refExtern (NewRuleBuilder 0)
      { parseABC with RuleEntities :=
          [("C", mkRule "C" 5 3), ("A", mkRule "A" 10 1), ("B", mkRule "B" 5 2)] }).1.Kc ∧
    KcWf (BuildRuleFromString refExtern (NewRuleBuilder 0)
      { parseABC with RuleEntities :=
          [("C", mkRule "C" 5 3), ("A", mkRule "A" 10 1), ("B", mkRule "B" 5 2)] }).1.Kc :=
  C1_full_build_invariant refExtern (NewRuleBuilder 0) parseABC
    [("C", mkRule "C" 5 3), ("A", mkRule "A" 10 1), ("B", mkRule "B" 5 2)]
    rfl rfl (by decide) (by decide)

/-- C2: `BuildRuleWithIncremental` preserves the invariant of the knowledge
context.  For a published context that satisfies `KcInv` (equal sizes, sorted
ordering, `SortRulesIndexMap[n]` the position of `RuleEntities[n]`) on
name-keyed maps, a search whose derived position is a valid insertion point, a
non-empty parse result without errors, holding any mix of new names and of
existing names with changed or unchanged salience, and every order `enum` in
which its entities are processed, the call returns `nil` and the context it
publishes satisfies the same conditions. -/
theorem C2_incremental_preserves_invariant (ext : Extern) (builder : RuleBuilder)
    (pr : ParseResult) (enum : GoMap RuleEntity)
    (hinv : KcInv builder.Kc) (hwf : KcWf builder.Kc) (hbs : ValidSearch ext.BinarySearch)
    (hge : pr.GrammarErrors = []) (hpe : pr.ParseErrors = []) (hne : pr.RuleEntities ≠ [])
    (hnk : NameKeyed pr.RuleEntities) (henum : enum.Perm pr.RuleEntities) :
    (BuildRuleWithIncremental ext builder { pr with RuleEntities := enum }).2 = Ret.nil ∧
    KcInv (BuildRuleWithIncremental ext builder { pr with RuleEntities := enum }).1.Kc ∧
    KcWf (BuildRuleWithIncremental ext builder { pr with RuleEntities := enum }).1.Kc := by
  have hg := Good.ofInv hinv hwf
  have hk := (nameKeyed_perm _ _ henum hnk).2
  have hne' : enum ≠ [] := by
    rintro rfl
    exact hne (List.perm_nil.1 henum.symm)
  obtain ⟨kc', hkc⟩ := listLoop_isSome ext builder.Dc enum builder.Kc hg hinv.2.2.1 hbs hk
  rw [(incremental_eq ext builder { pr with RuleEntities := enum } hge hpe hne' hg.regKeys).1
    kc' hkc]
  exact ⟨rfl, (listLoop_good ext builder.Dc enum builder.Kc kc' hg hk hkc).toInv
    (listLoop_sorted ext builder.Dc enum builder.Kc kc' hg hinv.2.2.1 hbs hk hkc)⟩

/-- C2 at `[A(10), B(5), C(5)]`, updated with a new rule D(7), B changed to
salience 20 and C with its salience unchanged. -/
theorem C2_incremental_preserves_invariant_witness :
    (BuildRuleWithIncremental refExtern builderABC
      { parseABC with RuleEntities :=
          [("D", mkRule "D" 7 4), ("B", mkRule "B" 20 5), ("C", mkRule "C" 5 6)] }).2 = Ret.nil ∧
    KcInv (BuildRuleWithIncremental refExtern builderABC
      { parseABC with RuleEntities :=
          [("D", mkRule "D" 7 4), ("B", mkRule "B" 20 5), ("C", mkRule "C" 5 6)] }).1.Kc ∧
    KcWf (BuildRuleWithIncremental refExtern builderABC
      { parseABC with RuleEntities :=
          [("D", mkRule "D" 7 4), ("B", mkRule "B" 20 5), ("C", mkRule "C" 5 6)] }).1.Kc :=
  C2_incremental_preserves_invariant refExtern builderABC
    { parseABC with RuleEntities :=
        [("C", mkRule "C" 5 6), ("D", mkRule "D" 7 4), ("B", mkRule "B" 20 5)] }
    [("D", mkRule "D" 7 4), ("B", mkRule "B" 20 5), ("C", mkRule "C" 5 6)]
    (by decide) (by decide) scanSearch_valid rfl rfl (by decide) (by decide) (by decide)

/-- C3: reorder correctness.  For a published context that satisfies the
invariant and an incremental update of one entity `E` whose name exists with
another salience (`old` is the stored entity), under the hypothesis on the
search, the call returns `nil` and the published ordering is the old ordering
with `old` removed from its position `i` and the initialised `E` put at a
position `p`: every other rule stays, once, in the same relative order, the
length is unchanged, the result is sorted by non-increasing salience, and
`SortRulesIndexMap` maps every name to its position in the published ordering.
This is the ordering published through the outer `newSortRules`, which sees the
writes made through the shadowed inner variable. -/
theorem C3_reorder_correct (ext : Extern) (builder : RuleBuilder) (pr : ParseResult)
    (E old : RuleEntity) (hinv : KcInv builder.Kc) (hwf : KcWf builder.Kc)
    (hbs : ValidSearch ext.BinarySearch)
    (hge : pr.GrammarErrors = []) (hpe : pr.ParseErrors = [])
    (hone : pr.RuleEntities = [(E.RuleName, E)])
    (hold : GoMap.lookup builder.Kc.RuleEntities E.RuleName = some old)
    (hsal : E.Salience ≠ old.Salience) :
    ∃ i p, builder.Kc.SortRules[i]? = some old ∧
      p ≤ (builder.Kc.SortRules.eraseIdx i).length ∧
      (BuildRuleWithIncremental ext builder pr).2 = Ret.nil ∧
      (BuildRuleWithIncremental ext builder pr).1.Kc.SortRules =
        insertAt (builder.Kc.SortRules.eraseIdx i) p (Initialize E builder.Dc) ∧
      SortedDesc (BuildRuleWithIncremental ext builder pr).1.Kc.SortRules ∧
      (BuildRuleWithIncremental ext builder pr).1.Kc.SortRules.length =
        builder.Kc.SortRules.length ∧
      ((BuildRuleWithIncremental ext builder pr).1.Kc.SortRules.map
        RuleEntity.RuleName).Nodup ∧
      ∀ n j, GoMap.lookup (BuildRuleWithIncremental ext builder pr).1.Kc.SortRulesIndexMap n
          = some j ↔
        ((BuildRuleWithIncremental ext builder pr).1.Kc.SortRules.map
          RuleEntity.RuleName)[j]? = some n := by
  have hg := Good.ofInv hinv hwf
  have hs := hinv.2.2.1
  obtain ⟨i, hi, hname, hidx, hlt⟩ := index_of_good hg _ old hold
  have hp := hbs (builder.Kc.SortRules.eraseIdx i) E.Salience (sorted_eraseIdx _ _ hs)
  have hstep := listStep_changed ext builder.Dc builder.Kc _ E old i hold hidx hlt hsal
  rw [if_pos ⟨hp.1, hp.2.1⟩] at hstep
  have hloop := (listLoop_single ext builder.Dc builder.Kc E.RuleName E).trans hstep
  rw [← hone] at hloop
  have hne : pr.RuleEntities ≠ [] := by rw [hone]; simp
  have hg' := listStep_good ext builder.Dc builder.Kc _ _ E hg rfl hstep
  refine ⟨i, (insertPos (ext.BinarySearch (builder.Kc.SortRules.eraseIdx i) E.Salience)).toNat,
    hi, by have := hp.1; have := hp.2.1; omega, ?_⟩
  rw [(incremental_eq ext builder pr hge hpe hne hg.regKeys).1 _ hloop]
  refine ⟨rfl, rfl, sorted_insertAt _ _ (Initialize E builder.Dc) (sorted_eraseIdx _ _ hs) hp,
    ?_, hg'.names, hg'.idx⟩
  simp only [length_insertAt]
  exact length_eraseIdx_of_lt _ _ hlt

/-- C3 at `[A(10), B(5), C(5)]` with B updated to salience 20: the published
ordering is `[B, A, C]` and the index is `{B:0, A:1, C:2}`. -/
theorem C3_reorder_correct_witness :
    (∃ i p, builderABC.Kc.SortRules[i]? = some (mkRule "B" 5 2) ∧
      p ≤ (builderABC.Kc.SortRules.eraseIdx i).length ∧
      (BuildRuleWithIncremental refExtern builderABC
        { parseABC with RuleEntities := [("B", mkRule "B" 20 7)] }).2 = Ret.nil ∧
      (BuildRuleWithIncremental refExtern builderABC
        { parseABC with RuleEntities := [("B", mkRule "B" 20 7)] }).1.Kc.SortRules =
        insertAt (builderABC.Kc.SortRules.eraseIdx i) p
          (Initialize (mkRule "B" 20 7) builderABC.Dc) ∧
      SortedDesc (BuildRuleWithIncremental refExtern builderABC
        { parseABC with RuleEntities := [("B", mkRule "B" 20 7)] }).1.Kc.SortRules ∧
      (BuildRuleWithIncremental refExtern builderABC
        { parseABC with RuleEntities := [("B", mkRule "B" 20 7)] }).1.Kc.SortRules.length =
        builderABC.Kc.SortRules.length ∧
      ((BuildRuleWithIncremental refExtern builderABC
        { parseABC with RuleEntities := [("B", mkRule "B" 20 7)] }).1.Kc.SortRules.map
        RuleEntity.RuleName).Nodup ∧
      ∀ n j, GoMap.lookup (BuildRuleWithIncremental refExtern builderABC
          { parseABC with RuleEntities := [("B", mkRule "B" 20 7)] }).1.Kc.SortRulesIndexMap n
          = some j ↔
        ((BuildRuleWithIncremental refExtern builderABC
          { parseABC with RuleEntities := [("B", mkRule "B" 20 7)] }).1.Kc.SortRules.map
          RuleEntity.RuleName)[j]? = some n) ∧
    (BuildRuleWithIncremental refExtern builderABC
      { parseABC with RuleEntities := [("B", mkRule "B" 20 7)] }).1.Kc.SortRules.map
      RuleEntity.RuleName = ["B", "A", "C"] ∧
    (BuildRuleWithIncremental refExtern builderABC
      { parseABC with RuleEntities := [("B", mkRule "B" 20 7)] }).1.Kc.SortRulesIndexMap =
      [("B", 0), ("A", 1), ("C", 2)] :=
  ⟨C3_reorder_correct refExtern builderABC
      { parseABC with RuleEntities := [("B", mkRule "B" 20 7)] }
      (mkRule "B" 20 7) (mkRule "B" 5 2) (by decide) (by decide) scanSearch_valid rfl rfl rfl
      (by decide) (by decide),
    by decide, by decide⟩

/-- C4: insertion correctness.  For a published context that satisfies the
invariant and an incremental update of one entity `E` whose name is not in the
registry, under the hypothesis on the search, the call returns `nil`; the
ordering, the registry and the index each hold exactly one rule more than
before; the published ordering is the old ordering with the initialised `E`
spliced in at a position `p` (all old rules keep their relative order) and is
sorted by non-increasing salience; `SortRulesIndexMap` maps every name, old and
new, to its position. -/
theorem C4_insertion_correct (ext : Extern) (builder : RuleBuilder) (pr : ParseResult)
    (E : RuleEntity) (hinv : KcInv builder.Kc) (hwf : KcWf builder.Kc)
    (hbs : ValidSearch ext.BinarySearch)
    (hge : pr.GrammarErrors = []) (hpe : pr.ParseErrors = [])
    (hone : pr.RuleEntities = [(E.RuleName, E)])
    (hnew : GoMap.lookup builder.Kc.RuleEntities E.RuleName = none) :
    (BuildRuleWithIncremental ext builder pr).2 = Ret.nil ∧
    (BuildRuleWithIncremental ext builder pr).1.Kc.SortRules.length =
      builder.Kc.SortRules.length + 1 ∧
    (BuildRuleWithIncremental ext builder pr).1.Kc.RuleEntities.length =
      builder.Kc.RuleEntities.length + 1 ∧
    (BuildRuleWithIncremental ext builder pr).1.Kc.SortRulesIndexMap.length =
      builder.Kc.SortRulesIndexMap.length + 1 ∧
    (∃ p, p ≤ builder.Kc.SortRules.length ∧
      (BuildRuleWithIncremental ext builder pr).1.Kc.SortRules =
        insertAt builder.Kc.SortRules p (Initialize E builder.Dc)) ∧
    SortedDesc (BuildRuleWithIncremental ext builder pr).1.Kc.SortRules ∧
    ∀ n j, GoMap.lookup (BuildRuleWithIncremental ext builder pr).1.Kc.SortRulesIndexMap n
        = some j ↔
      ((BuildRuleWithIncremental ext builder pr).1.Kc.SortRules.map
        RuleEntity.RuleName)[j]? = some n := by
  have hg := Good.ofInv hinv hwf
  have hs := hinv.2.2.1
  have hp := hbs builder.Kc.SortRules E.Salience hs
  have hstep := listStep_new ext builder.Dc builder.Kc E.RuleName E hnew
  rw [if_pos ⟨hp.1, hp.2.1⟩] at hstep
  have hloop := (listLoop_single ext builder.Dc builder.Kc E.RuleName E).trans hstep
  rw [← hone] at hloop
  have hne : pr.RuleEntities ≠ [] := by rw [hone]; simp
  have hg' := listStep_good ext builder.Dc builder.Kc _ _ E hg rfl hstep
  have hlen := hg'.length_idx
  rw [(incremental_eq ext builder pr hge hpe hne hg.regKeys).1 _ hloop]
  refine ⟨rfl, length_insertAt _ _ _, ?_, ?_, ⟨_, ?_, rfl⟩,
    sorted_insertAt _ _ (Initialize E builder.Dc) hs hp, hg'.idx⟩
  · exact length_store_of_not_mem _ _ _ ((GoMap.lookup_eq_none_iff _ _).1 hnew)
  · simp only [length_insertAt] at hlen
    simp only [hlen, hinv.2.1]
  · have := hp.1
    have := hp.2.1
    omega

/-- C4 at `[A(10), B(5), C(5)]` with the new rule D(7): the published ordering
is `[A, D, B, C]` and the index is `{A:0, D:1, B:2, C:3}`. -/
theorem C4_insertion_correct_witness :
    ((BuildRuleWithIncremental refExtern builderABC
      { parseABC with RuleEntities := [("D", mkRule "D" 7 4)] }).2 = Ret.nil ∧
    (BuildRuleWithIncremental refExtern builderABC
      { parseABC with RuleEntities := [("D", mkRule "D" 7 4)] }).1.Kc.SortRules.length =
      builderABC.Kc.SortRules.length + 1 ∧
    (BuildRuleWithIncremental refExtern builderABC
      { parseABC with RuleEntities := [("D", mkRule "D" 7 4)] }).1.Kc.RuleEntities.length =
      builderABC.Kc.RuleEntities.length + 1 ∧
    (BuildRuleWithIncremental refExtern builderABC
      { parseABC with RuleEntities := [("D", mkRule "D" 7 4)] }).1.Kc.SortRulesIndexMap.length =
      builderABC.Kc.SortRulesIndexMap.length + 1 ∧
    (∃ p, p ≤ builderABC.Kc.SortRules.length ∧
      (BuildRuleWithIncremental refExtern builderABC
        { parseABC with RuleEntities := [("D", mkRule "D" 7 4)] }).1.Kc.SortRules =
        insertAt builderABC.Kc.SortRules p (Initialize (mkRule "D" 7 4) builderABC.Dc)) ∧
    SortedDesc (BuildRuleWithIncremental refExtern builderABC
      { parseABC with RuleEntities := [("D", mkRule "D" 7 4)] }).1.Kc.SortRules ∧
    ∀ n j, GoMap.lookup (BuildRuleWithIncremental refExtern builderABC
        { parseABC with RuleEntities := [("D", mkRule "D" 7 4)] }).1.Kc.SortRulesIndexMap n
        = some j ↔
      ((BuildRuleWithIncremental refExtern builderABC
        { parseABC with RuleEntities := [("D", mkRule "D" 7 4)] }).1.Kc.SortRules.map
        RuleEntity.RuleName)[j]? = some n) ∧
    (BuildRuleWithIncremental refExtern builderABC
      { parseABC with RuleEntities := [("D", mkRule "D" 7 4)] }).1.Kc.SortRules.map
      RuleEntity.RuleName = ["A", "D", "B", "C"] ∧
    (BuildRuleWithIncremental refExtern builderABC
      { parseABC with RuleEntities := [("D", mkRule "D" 7 4)] }).1.Kc.SortRulesIndexMap =
      [("A", 0), ("D", 1), ("B", 2), ("C", 3)] :=
  ⟨C4_insertion_correct refExtern builderABC
      { parseABC with RuleEntities := [("D", mkRule "D" 7 4)] }
      (mkRule "D" 7 4) (by decide) (by decide) scanSearch_valid rfl rfl rfl (by decide),
    by decide, by decide⟩

/-- C5: stable replace.  For a published context that satisfies the invariant
and an incremental update (no errors, at least one entity) all of whose
entities have a name of the registry and the salience of the stored entity,
the call returns `nil`; the ordering keeps its length and the rule name at
every position; the slot of each updated name holds the new (initialised)
entity and the registry maps the name to it; every slot of a name that is not
updated is unchanged; `SortRulesIndexMap` is unchanged.  No hypothesis on the
search is needed, since it is not called. -/
theorem C5_stable_replace (ext : Extern) (builder : RuleBuilder) (pr : ParseResult)
    (hinv : KcInv builder.Kc) (hwf : KcWf builder.Kc)
    (hge : pr.GrammarErrors = []) (hpe : pr.ParseErrors = []) (hne : pr.RuleEntities ≠ [])
    (hnk : NameKeyed pr.RuleEntities)
    (hall : ∀ p ∈ pr.RuleEntities, ∃ old,
      GoMap.lookup builder.Kc.RuleEntities p.1 = some old ∧ p.2.Salience = old.Salience) :
    (BuildRuleWithIncremental ext builder pr).2 = Ret.nil ∧
    (BuildRuleWithIncremental ext builder pr).1.Kc.SortRulesIndexMap =
      builder.Kc.SortRulesIndexMap ∧
    (BuildRuleWithIncremental ext builder pr).1.Kc.SortRules.length =
      builder.Kc.SortRules.length ∧
    (BuildRuleWithIncremental ext builder pr).1.Kc.SortRules.map RuleEntity.RuleName =
      builder.Kc.SortRules.map RuleEntity.RuleName ∧
    (∀ p ∈ pr.RuleEntities,
      GoMap.lookup (BuildRuleWithIncremental ext builder pr).1.Kc.RuleEntities p.1 =
        some (Initialize p.2 builder.Dc) ∧
      ∃ i, GoMap.lookup builder.Kc.SortRulesIndexMap p.1 = some i ∧
        (BuildRuleWithIncremental ext builder pr).1.Kc.SortRules[i]? =
          some (Initialize p.2 builder.Dc)) ∧
    (∀ (i : Nat) (e : RuleEntity), builder.Kc.SortRules[i]? = some e → e.RuleName ∉ GoMap.keys pr.RuleEntities →
      (BuildRuleWithIncremental ext builder pr).1.Kc.SortRules[i]? = some e) := by
  have hg := Good.ofInv hinv hwf
  obtain ⟨kc', hloop, hI, hN⟩ := listLoop_same ext builder.Dc pr.RuleEntities builder.Kc hg
    hnk.1 hnk.2 hall
  have hg' := listLoop_good ext builder.Dc pr.RuleEntities builder.Kc kc' hg hnk.2 hloop
  have hreg := listLoop_reg ext builder.Dc pr.RuleEntities builder.Kc kc' hnk.1 hloop
  rw [(incremental_eq ext builder pr hge hpe hne hg.regKeys).1 kc' hloop]
  simp only
  -- the entity the new registry holds for a name sits at the position of that name
  have hslot : ∀ (n : String) (e : RuleEntity) (i : Nat),
      GoMap.lookup kc'.RuleEntities n = some e →
      (builder.Kc.SortRules.map RuleEntity.RuleName)[i]? = some n →
      kc'.SortRules[i]? = some e := by
    intro n e i hl hi
    obtain ⟨hm, hen⟩ := (hg'.reg n e).1 hl
    obtain ⟨j, hj⟩ := List.mem_iff_getElem?.1 hm
    have hji : j = i := by
      refine nodup_getElem?_inj _ hg.names j i n ?_ hi
      rw [← hN, ← hen]
      exact getElem?_map_name _ _ _ hj
    rw [← hji]
    exact hj
  refine ⟨trivial, hI, ?_, hN, ?_, ?_⟩
  · simpa using congrArg List.length hN
  · intro p hp
    have hmem : p.1 ∈ GoMap.keys pr.RuleEntities := List.mem_map_of_mem Prod.fst hp
    have hl : GoMap.lookup kc'.RuleEntities p.1 = some (Initialize p.2 builder.Dc) := by
      rw [hreg p.1, if_pos hmem, lookup_of_nameKeyed _ hnk.1 p hp]
      rfl
    refine ⟨hl, ?_⟩
    obtain ⟨old, hold, -⟩ := hall p hp
    obtain ⟨i, -, -, hidx, -⟩ := index_of_good hg p.1 old hold
    exact ⟨i, hidx, hslot p.1 _ i hl ((hg.idx p.1 i).1 hidx)⟩
  · intro i e hi hnot
    refine hslot e.RuleName e i ?_ (getElem?_map_name _ _ _ hi)
    rw [hreg e.RuleName, if_neg hnot]
    exact (hg.reg e.RuleName e).2 ⟨List.getElem?_mem hi, rfl⟩

/-- C5 at `[A(10), B(5), C(5)]` with new bodies for C and A and the saliences
unchanged. -/
theorem C5_stable_replace_witness :
    (BuildRuleWithIncremental refExtern builderABC
      { parseABC with RuleEntities := [("C", mkRule "C" 5 8), ("A", mkRule "A" 10 9)] }).2
      = Ret.nil ∧
    (BuildRuleWithIncremental refExtern builderABC
      { parseABC with RuleEntities := [("C", mkRule "C" 5 8), ("A", mkRule "A" 10 9)] }).1.Kc.SortRulesIndexMap =
      builderABC.Kc.SortRulesIndexMap ∧
    (BuildRuleWithIncremental refExtern builderABC
      { parseABC with RuleEntities := [("C", mkRule "C" 5 8), ("A", mkRule "A" 10 9)] }).1.Kc.SortRules.length =
      builderABC.Kc.SortRules.length ∧
    (BuildRuleWithIncremental refExtern builderABC
      { parseABC with RuleEntities := [("C", mkRule "C" 5 8), ("A", mkRule "A" 10 9)] }).1.Kc.SortRules.map
        RuleEntity.RuleName = builderABC.Kc.SortRules.map RuleEntity.RuleName ∧
    (∀ p ∈ [("C", mkRule "C" 5 8), ("A", mkRule "A" 10 9)],
      GoMap.lookup (BuildRuleWithIncremental refExtern builderABC
        { parseABC with RuleEntities := [("C", mkRule "C" 5 8), ("A", mkRule "A" 10 9)] }).1.Kc.RuleEntities
          p.1 = some (Initialize p.2 builderABC.Dc) ∧
      ∃ i, GoMap.lookup builderABC.Kc.SortRulesIndexMap p.1 = some i ∧
        (BuildRuleWithIncremental refExtern builderABC
          { parseABC with RuleEntities := [("C", mkRule "C" 5 8), ("A", mkRule "A" 10 9)] }).1.Kc.SortRules[i]? =
          some (Initialize p.2 builderABC.Dc)) ∧
    (∀ (i : Nat) (e : RuleEntity), builderABC.Kc.SortRules[i]? = some e →
      e.RuleName ∉ GoMap.keys [("C", mkRule "C" 5 8), ("A", mkRule "A" 10 9)] →
      (BuildRuleWithIncremental refExtern builderABC
        { parseABC with RuleEntities := [("C", mkRule "C" 5 8), ("A", mkRule "A" 10 9)] }).1.Kc.SortRules[i]? =
        some e) :=
  C5_stable_replace refExtern builderABC
    { parseABC with RuleEntities := [("C", mkRule "C" 5 8), ("A", mkRule "A" 10 9)] }
    (by decide) (by decide) rfl rfl (by decide) (by decide) (by decide)

/-- C6: atomicity of failure.  For every builder state and every parse result
whose grammar-error collection or semantic-error collection is non-empty,
`BuildRuleFromString` returns an error and leaves the builder, hence the
published registry, ordering and index, exactly as before the call; the same
holds for `BuildRuleWithIncremental`. -/
theorem C6_failure_atomic (ext : Extern) (builder : RuleBuilder) (pr : ParseResult)
    (h : pr.GrammarErrors ≠ [] ∨ pr.ParseErrors ≠ []) :
    ((∃ msg, (BuildRuleFromString ext builder pr).2 = Ret.error msg) ∧
      (BuildRuleFromString ext builder pr).1.Kc = builder.Kc) ∧
    ((∃ msg, (BuildRuleWithIncremental ext builder pr).2 = Ret.error msg) ∧
      (BuildRuleWithIncremental ext builder pr).1.Kc = builder.Kc) := by
  rw [fromString_error ext builder pr h, incremental_error ext builder pr h]
  exact ⟨⟨⟨_, rfl⟩, rfl⟩, ⟨_, rfl⟩, rfl⟩

/-- C6 at the published context `[A(10), B(5), C(5)]` and a parse result that
holds a rule together with one semantic error. -/
theorem C6_failure_atomic_witness :
    ((∃ msg, (BuildRuleFromString refExtern builderABC
        { parseABC with ParseErrors := ["bad clause"] }).2 = Ret.error msg) ∧
      (BuildRuleFromString refExtern builderABC
        { parseABC with ParseErrors := ["bad clause"] }).1.Kc = builderABC.Kc) ∧
    ((∃ msg, (BuildRuleWithIncremental refExtern builderABC
        { parseABC with ParseErrors := ["bad clause"] }).2 = Ret.error msg) ∧
      (BuildRuleWithIncremental refExtern builderABC
        { parseABC with ParseErrors := ["bad clause"] }).1.Kc = builderABC.Kc) :=
  C6_failure_atomic refExtern builderABC { parseABC with ParseErrors := ["bad clause"] }
    (Or.inr (by decide))

/-- C7: empty-update rejection.  For every builder state, when the parse result
has no grammar error, no semantic error and no rule entity,
`BuildRuleWithIncremental` returns the error `no rules need to update or add.`
and leaves the builder, hence the published registry, ordering and index,
unchanged; that message is the rendering of no error collection, so the error
is distinct from every grammar or semantic error value. -/
theorem C7_empty_update_rejected (ext : Extern) (builder : RuleBuilder) (pr : ParseResult)
    (hge : pr.GrammarErrors = []) (hpe : pr.ParseErrors = []) (hempty : pr.RuleEntities = []) :
    BuildRuleWithIncremental ext builder pr =
      (builder, Ret.error "no rules need to update or add.") ∧
    ∀ errs : List String, render errs ≠ "no rules need to update or add." := by
  constructor
  · simp [BuildRuleWithIncremental, hge, hpe, hempty]
  · intro errs hc
    have := congrArg (fun s => s.data.head?) hc
    simp only [render_data, List.head?_cons] at this
    revert this
    decide

/-- C7 at the published context `[A(10), B(5), C(5)]` and the empty parse
result. -/
theorem C7_empty_update_rejected_witness :
    BuildRuleWithIncremental refExtern builderABC { parseABC with RuleEntities := [] } =
      (builderABC, Ret.error "no rules need to update or add.") ∧
    ∀ errs : List String, render errs ≠ "no rules need to update or add." :=
  C7_empty_update_rejected refExtern builderABC { parseABC with RuleEntities := [] } rfl rfl rfl

/-- C8: carry-over.  For every published context (the context of a builder
reached from `NewRuleBuilder` by builds of name-keyed parse results) and every
incremental update that returns `nil`, the key set of the published registry is
the union of the old key set and the parsed names; every name that was present
and is absent from the parse maps to the same entity as before, and that entity
occurs exactly once in the published ordering; every parsed name maps to the
newly parsed (initialised) entity.  Nothing is assumed of the search. -/
theorem C8_carry_over (ext : Extern) (builder : RuleBuilder) (pr : ParseResult)
    (hpub : Published ext builder) (hnk : NameKeyed pr.RuleEntities)
    (hsucc : (BuildRuleWithIncremental ext builder pr).2 = Ret.nil) :
    (∀ n, n ∈ GoMap.keys (BuildRuleWithIncremental ext builder pr).1.Kc.RuleEntities ↔
      n ∈ GoMap.keys builder.Kc.RuleEntities ∨ n ∈ GoMap.keys pr.RuleEntities) ∧
    (∀ n e, GoMap.lookup builder.Kc.RuleEntities n = some e →
      n ∉ GoMap.keys pr.RuleEntities →
      GoMap.lookup (BuildRuleWithIncremental ext builder pr).1.Kc.RuleEntities n = some e ∧
      (BuildRuleWithIncremental ext builder pr).1.Kc.SortRules.count e = 1) ∧
    (∀ p ∈ pr.RuleEntities,
      GoMap.lookup (BuildRuleWithIncremental ext builder pr).1.Kc.RuleEntities p.1 =
        some (Initialize p.2 builder.Dc)) := by
  have hg := published_good ext builder hpub
  obtain ⟨kc', hloop, heq⟩ := incremental_of_nil ext builder pr hg.regKeys hsucc
  have hg' := listLoop_good ext builder.Dc pr.RuleEntities builder.Kc kc' hg hnk.2 hloop
  have hreg := listLoop_reg ext builder.Dc pr.RuleEntities builder.Kc kc' hnk.1 hloop
  rw [heq]
  simp only
  refine ⟨fun n => ?_, fun n e hl hnot => ?_, fun p hp => ?_⟩
  · rw [GoMap.mem_keys_iff, GoMap.mem_keys_iff]
    by_cases hmem : n ∈ GoMap.keys pr.RuleEntities
    · obtain ⟨v, hv⟩ := (GoMap.mem_keys_iff _ _).1 hmem
      constructor
      · exact fun _ => Or.inr hmem
      · intro _
        exact ⟨_, by rw [hreg n, if_pos hmem, hv]; rfl⟩
    · rw [hreg n, if_neg hmem]
      simp only [hmem, or_false]
  · have hl' : GoMap.lookup kc'.RuleEntities n = some e := by
      rw [hreg n, if_neg hnot]
      exact hl
    refine ⟨hl', ?_⟩
    exact List.count_eq_one_of_mem (List.Nodup.of_map _ hg'.names) ((hg'.reg n e).1 hl').1
  · have hmem : p.1 ∈ GoMap.keys pr.RuleEntities := List.mem_map_of_mem Prod.fst hp
    rw [hreg p.1, if_pos hmem, lookup_of_nameKeyed _ hnk.1 p hp]
    rfl

/-- C8 at the context published by the full build of A(10), B(5), C(5),
updated with the new rule D(7) and with B changed to salience 20: A and C are
carried over. -/
theorem C8_carry_over_witness :
    (∀ n, n ∈ GoMap.keys (BuildRuleWithIncremental refExtern
        (BuildRuleFromString refExtern (NewRuleBuilder 0) parseABC).1
        { parseABC with RuleEntities :=
            [("D", mkRule "D" 7 4), ("B", mkRule "B" 20 5)] }).1.Kc.RuleEntities ↔
      n ∈ GoMap.keys (BuildRuleFromString refExtern (NewRuleBuilder 0) parseABC).1.Kc.RuleEntities ∨
        n ∈ GoMap.keys [("D", mkRule "D" 7 4), ("B", mkRule "B" 20 5)]) ∧
    (∀ n e, GoMap.lookup
        (BuildRuleFromString refExtern (NewRuleBuilder 0) parseABC).1.Kc.RuleEntities n = some e →
      n ∉ GoMap.keys [("D", mkRule "D" 7 4), ("B", mkRule "B" 20 5)] →
      GoMap.lookup (BuildRuleWithIncremental refExtern
        (BuildRuleFromString refExtern (NewRuleBuilder 0) parseABC).1
        { parseABC with RuleEntities :=
            [("D", mkRule "D" 7 4), ("B", mkRule "B" 20 5)] }).1.Kc.RuleEntities n = some e ∧
      (BuildRuleWithIncremental refExtern
        (BuildRuleFromString refExtern (NewRuleBuilder 0) parseABC).1
        { parseABC with RuleEntities :=
            [("D", mkRule "D" 7 4), ("B", mkRule "B" 20 5)] }).1.Kc.SortRules.count e = 1) ∧
    (∀ p ∈ [("D", mkRule "D" 7 4), ("B", mkRule "B" 20 5)],
      GoMap.lookup (BuildRuleWithIncremental refExtern
        (BuildRuleFromString refExtern (NewRuleBuilder 0) parseABC).1
        { parseABC with RuleEntities :=
            [("D", mkRule "D" 7 4), ("B", mkRule "B" 20 5)] }).1.Kc.RuleEntities p.1 =
        some (Initialize p.2 (BuildRuleFromString refExtern (NewRuleBuilder 0) parseABC).1.Dc)) :=
  C8_carry_over refExtern (BuildRuleFromString refExtern (NewRuleBuilder 0) parseABC).1
    { parseABC with RuleEntities := [("D", mkRule "D" 7 4), ("B", mkRule "B" 20 5)] }
    (Published.full (NewRuleBuilder 0) parseABC (Published.new 0) (by decide) (by decide))
    (by decide) (by decide)

/-- C9: the full rebuild is a pure replace.  For every prior builder state and
every parse result without errors, `BuildRuleFromString` returns `nil`; the
published registry is exactly the parsed entity map (its entities initialised);
the published ordering is a permutation of the parsed entities; the keys of the
published index are exactly the names of the parsed entities.  Hence a name
that is not a key of the parse is not in the registry, an entity that is not
parsed is not in the ordering, and a name of no parsed entity is not in the
index, whatever the previously published context held. -/
theorem C9_full_rebuild_replaces (ext : Extern) (builder : RuleBuilder) (pr : ParseResult)
    (hge : pr.GrammarErrors = []) (hpe : pr.ParseErrors = []) :
    (BuildRuleFromString ext builder pr).2 = Ret.nil ∧
    (BuildRuleFromString ext builder pr).1.Kc.RuleEntities =
      initialized builder.Dc pr.RuleEntities ∧
    (BuildRuleFromString ext builder pr).1.Kc.SortRules.Perm
      ((initialized builder.Dc pr.RuleEntities).map Prod.snd) ∧
    (∀ n, n ∈ GoMap.keys (BuildRuleFromString ext builder pr).1.Kc.SortRulesIndexMap ↔
      ∃ p ∈ pr.RuleEntities, p.2.RuleName = n) ∧
    (∀ n, n ∉ GoMap.keys pr.RuleEntities →
      GoMap.lookup (BuildRuleFromString ext builder pr).1.Kc.RuleEntities n = none) ∧
    (∀ e, e ∉ (initialized builder.Dc pr.RuleEntities).map Prod.snd →
      e ∉ (BuildRuleFromString ext builder pr).1.Kc.SortRules) ∧
    (∀ n, (∀ p ∈ pr.RuleEntities, p.2.RuleName ≠ n) →
      GoMap.lookup (BuildRuleFromString ext builder pr).1.Kc.SortRulesIndexMap n = none) := by
  rw [fromString_eq ext builder pr hge hpe]
  simp only
  have hperm := fullOrdering_perm (initialized builder.Dc pr.RuleEntities)
  have hkeys : ∀ n, n ∈ GoMap.keys
      (indexLoop 0 (fullOrdering (initialized builder.Dc pr.RuleEntities)) []) ↔
      ∃ p ∈ pr.RuleEntities, p.2.RuleName = n := by
    intro n
    rw [mem_keys_indexLoop, (hperm.map RuleEntity.RuleName).mem_iff]
    simp [GoMap.keys, initialized, Initialize]
  refine ⟨trivial, trivial, hperm, hkeys, fun n hn => ?_, fun e he hc => ?_, fun n hn => ?_⟩
  · rw [GoMap.lookup_eq_none_iff, initialized_keys]
    exact hn
  · exact he (hperm.mem_iff.1 hc)
  · rw [GoMap.lookup_eq_none_iff, hkeys]
    rintro ⟨p, hp, hpn⟩
    exact hn p hp hpn

/-- C9 at the published context `[A(10), B(5), C(5)]`, rebuilt from a parse
that holds the rules D(7) and B(20) only. -/
theorem C9_full_rebuild_replaces_witness :
    (BuildRuleFromString refExtern builderABC
      { parseABC with RuleEntities := [("D", mkRule "D" 7 4), ("B", mkRule "B" 20 5)] }).1.Kc =
      { RuleEntities := [("D", Initialize (mkRule "D" 7 4) 0), ("B", Initialize (mkRule "B" 20 5) 0)],
        SortRules := [Initialize (mkRule "B" 20 5) 0, Initialize (mkRule "D" 7 4) 0],
        SortRulesIndexMap := [("B", 0), ("D", 1)] } ∧
    (BuildRuleFromString refExtern builderABC
      { parseABC with RuleEntities := [("D", mkRule "D" 7 4), ("B", mkRule "B" 20 5)] }).1.Kc.RuleEntities =
      initialized builderABC.Dc [("D", mkRule "D" 7 4), ("B", mkRule "B" 20 5)] :=
  ⟨by decide,
    (C9_full_rebuild_replaces refExtern builderABC
      { parseABC with RuleEntities := [("D", mkRule "D" 7 4), ("B", mkRule "B" 20 5)] }
      rfl rfl).2.1⟩

/-- C10, as stated, fails: with one grammar error and one semantic error, the
error returned by `BuildRuleFromString` and by `BuildRuleWithIncremental` is
`[unexpected token]`; no returned message contains both the rendering of the
grammar errors and the rendering of the semantic errors. -/
theorem C10_combined_description_counterexample :
    (BuildRuleFromString refExtern builderABC parseBothErrors).2 =
      Ret.error "[unexpected token]" ∧
    (BuildRuleWithIncremental refExtern builderABC parseBothErrors).2 =
      Ret.error "[unexpected token]" ∧
    ¬ (∃ msg, (BuildRuleFromString refExtern builderABC parseBothErrors).2 = Ret.error msg ∧
        Contains msg (render parseBothErrors.GrammarErrors) ∧
        Contains msg (render parseBothErrors.ParseErrors)) ∧
    ¬ (∃ msg, (BuildRuleWithIncremental refExtern builderABC parseBothErrors).2 = Ret.error msg ∧
        Contains msg (render parseBothErrors.GrammarErrors) ∧
        Contains msg (render parseBothErrors.ParseErrors)) := by
  have h1 : (BuildRuleFromString refExtern builderABC parseBothErrors).2 =
      Ret.error "[unexpected token]" := by decide
  have h2 : (BuildRuleWithIncremental refExtern builderABC parseBothErrors).2 =
      Ret.error "[unexpected token]" := by decide
  have h3 : ¬ Contains "[unexpected token]" (render parseBothErrors.ParseErrors) := by decide
  refine ⟨h1, h2, ?_, ?_⟩
  · rintro ⟨msg, hm, -, hc⟩
    rw [h1] at hm
    cases hm
    exact h3 hc
  · rintro ⟨msg, hm, -, hc⟩
    rw [h2] at hm
    cases hm
    exact h3 hc

/-- C10, amended: for every parse result in which both the grammar-error
collection and the semantic-error collection are non-empty, the error returned
by `BuildRuleFromString`, and by `BuildRuleWithIncremental`, is the rendering of
the grammar errors alone, so its message contains the rendering of the grammar
errors. -/
theorem C10_grammar_errors_reported (ext : Extern) (builder : RuleBuilder) (pr : ParseResult)
    (hg : pr.GrammarErrors ≠ []) (hp : pr.ParseErrors ≠ []) :
    (BuildRuleFromString ext builder pr).2 = Ret.error (render pr.GrammarErrors) ∧
    (BuildRuleWithIncremental ext builder pr).2 = Ret.error (render pr.GrammarErrors) ∧
    Contains (render pr.GrammarErrors) (render pr.GrammarErrors) := by
  rw [fromString_error ext builder pr (Or.inl hg), incremental_error ext builder pr (Or.inr hp)]
  simp only [if_pos hg]
  exact ⟨trivial, trivial, List.infix_refl _⟩

/-- C10, amended, at one grammar error and one semantic error. -/
theorem C10_grammar_errors_reported_witness :
    (BuildRuleFromString refExtern builderABC parseBothErrors).2 =
      Ret.error (render parseBothErrors.GrammarErrors) ∧
    (BuildRuleWithIncremental refExtern builderABC parseBothErrors).2 =
      Ret.error (render parseBothErrors.GrammarErrors) ∧
    Contains (render parseBothErrors.GrammarErrors) (render parseBothErrors.GrammarErrors) :=
  C10_grammar_errors_reported refExtern builderABC parseBothErrors (by decide) (by decide)

/-- C11: the published context is written during the merge.  At the published
context `[A(10), B(5), C(5)]` and the update that adds D(7), the context
reachable through `builder.Kc` after the merge step, before the publish step,
has the registry and the ordering from before the call but already the index
`{A:0, D:1, B:2, C:3}`: the index sends B to position 2, where the visible
ordering holds C, and holds D, which the visible ordering and the visible
registry do not contain. -/
theorem C11_index_written_before_publish :
    visibleDuringMerge refExtern builderABC.Dc (mergeStart builderABC)
        [("D", mkRule "D" 7 4)] =
      [{ RuleEntities := kcABC.RuleEntities, SortRules := kcABC.SortRules,
         SortRulesIndexMap := [("A", 0), ("D", 1), ("B", 2), ("C", 3)] }] ∧
    kcABC.SortRulesIndexMap = [("A", 0), ("B", 1), ("C", 2)] ∧
    GoMap.lookup [("A", 0), ("D", 1), ("B", 2), ("C", 3)] "B" = some 2 ∧
    kcABC.SortRules[2]? = some (mkRule "C" 5 3) ∧
    GoMap.lookup [("A", 0), ("D", 1), ("B", 2), ("C", 3)] "D" = some 1 ∧
    GoMap.lookup kcABC.RuleEntities "D" = none ∧
    ¬ KcInv { RuleEntities := kcABC.RuleEntities, SortRules := kcABC.SortRules,
              SortRulesIndexMap := [("A", 0), ("D", 1), ("B", 2), ("C", 3)] } := by
  decide

/-- C15: the builds fail exactly on the documented conditions.
`BuildRuleFromString` returns an error if and only if the grammar-error
collection or the semantic-error collection is non-empty;
`BuildRuleWithIncremental` returns an error if and only if one of them is
non-empty or the parse holds zero entities.  The full rebuild of the error-free
parse result with zero entities returns `nil` and publishes the empty context.
A build that returns an error leaves the builder as it was: the error checks
come before every initialisation and merge step. -/
theorem C15_error_conditions (ext : Extern) (builder : RuleBuilder) (pr : ParseResult) :
    ((∃ msg, (BuildRuleFromString ext builder pr).2 = Ret.error msg) ↔
      (pr.GrammarErrors ≠ [] ∨ pr.ParseErrors ≠ [])) ∧
    ((∃ msg, (BuildRuleWithIncremental ext builder pr).2 = Ret.error msg) ↔
      (pr.GrammarErrors ≠ [] ∨ pr.ParseErrors ≠ [] ∨ pr.RuleEntities = [])) ∧
    BuildRuleFromString ext builder
        { RuleEntities := [], GrammarErrors := [], ParseErrors := [] } =
      ({ builder with Kc := NewKnowledgeContext }, Ret.nil) ∧
    ((∃ msg, (BuildRuleFromString ext builder pr).2 = Ret.error msg) →
      (BuildRuleFromString ext builder pr).1 = builder) ∧
    ((∃ msg, (BuildRuleWithIncremental ext builder pr).2 = Ret.error msg) →
      (BuildRuleWithIncremental ext builder pr).1 = builder) := by
  have hfull : (∃ msg, (BuildRuleFromString ext builder pr).2 = Ret.error msg) ↔
      (pr.GrammarErrors ≠ [] ∨ pr.ParseErrors ≠ []) := by
    constructor
    · rintro ⟨msg, hmsg⟩
      by_contra hc
      have hge : pr.GrammarErrors = [] := by
        by_contra h
        exact hc (Or.inl h)
      have hpe : pr.ParseErrors = [] := by
        by_contra h
        exact hc (Or.inr h)
      rw [fromString_eq ext builder pr hge hpe] at hmsg
      cases hmsg
    · intro h
      rw [fromString_error ext builder pr h]
      exact ⟨_, rfl⟩
  have hinc : (∃ msg, (BuildRuleWithIncremental ext builder pr).2 = Ret.error msg) ↔
      (pr.GrammarErrors ≠ [] ∨ pr.ParseErrors ≠ [] ∨ pr.RuleEntities = []) := by
    constructor
    · rintro ⟨msg, hmsg⟩
      by_contra hc
      have hge : pr.GrammarErrors = [] := by
        by_contra h
        exact hc (Or.inl h)
      have hpe : pr.ParseErrors = [] := by
        by_contra h
        exact hc (Or.inr (Or.inl h))
      have hne : pr.RuleEntities ≠ [] := fun h => hc (Or.inr (Or.inr h))
      rcases incremental_nil_or_panic ext builder pr hge hpe hne with h | h
      · rw [h] at hmsg
        cases hmsg
      · rw [h] at hmsg
        cases hmsg
    · intro h
      by_cases herr : pr.GrammarErrors ≠ [] ∨ pr.ParseErrors ≠ []
      · rw [incremental_error ext builder pr herr]
        exact ⟨_, rfl⟩
      · have hge : pr.GrammarErrors = [] := by
          by_contra hc
          exact herr (Or.inl hc)
        have hpe : pr.ParseErrors = [] := by
          by_contra hc
          exact herr (Or.inr hc)
        have hempty : pr.RuleEntities = [] := by
          rcases h with h | h | h
          · exact absurd hge h
          · exact absurd hpe h
          · exact h
        rw [incremental_empty ext builder pr hge hpe hempty]
        exact ⟨_, rfl⟩
  refine ⟨hfull, hinc, ?_, fun h => ?_, fun h => ?_⟩
  · rw [fromString_eq ext builder _ rfl rfl]
    rfl
  · rw [fromString_error ext builder pr (hfull.1 h)]
  · by_cases herr : pr.GrammarErrors ≠ [] ∨ pr.ParseErrors ≠ []
    · rw [incremental_error ext builder pr herr]
    · have hge : pr.GrammarErrors = [] := by
        by_contra hc
        exact herr (Or.inl hc)
      have hpe : pr.ParseErrors = [] := by
        by_contra hc
        exact herr (Or.inr hc)
      have hempty : pr.RuleEntities = [] := by
        rcases hinc.1 h with h | h | h
        · exact absurd hge h
        · exact absurd hpe h
        · exact h
      rw [incremental_empty ext builder pr hge hpe hempty]

/-- C16: index safety of the merge.  For a published context that satisfies
the invariant, a search whose derived position lies in `[0, len]` and a
non-empty parse result without errors, `BuildRuleWithIncremental` returns `nil`:
no index or slice expression is out of range.  In detail, at the moment any
entry `k, v` of the update is merged, after the entries `done` before it, the
loop has reached a state `st` in which, if the name exists, the position read
from `builder.Kc.SortRulesIndexMap` is smaller than `len(newSortRules)`, and
the step for `k, v` does not panic. -/
theorem C16_index_safety (ext : Extern) (builder : RuleBuilder) (pr : ParseResult)
    (hinv : KcInv builder.Kc) (hwf : KcWf builder.Kc)
    (hbs : InRangeSearch ext.BinarySearch)
    (hge : pr.GrammarErrors = []) (hpe : pr.ParseErrors = []) (hne : pr.RuleEntities ≠ [])
    (hnk : NameKeyed pr.RuleEntities) :
    (BuildRuleWithIncremental ext builder pr).2 = Ret.nil ∧
    ∀ done k v rest, pr.RuleEntities = done ++ (k, v) :: rest →
      ∃ st, mergeLoop ext builder.Dc (mergeStart builder) done = Except.ok st ∧
        (∀ vm, GoMap.lookup st.newRuleEntities k = some vm →
          (GoMap.lookup st.Kc.SortRulesIndexMap v.RuleName).getD 0 < st.newSortRules.len) ∧
        ∃ st', mergeStep ext builder.Dc st k v = some st' := by
  have hg := Good.ofInv hinv hwf
  have hg0 : Good (mergeStart builder).view := by
    rw [mergeStart_view builder hg.regKeys]
    exact hg
  have hwf0 : (mergeStart builder).newSortRules.WF := Slice.copyOf_WF _
  constructor
  · obtain ⟨st, hloop, -, -⟩ := mergeLoop_inRange ext builder.Dc pr.RuleEntities
      (mergeStart builder) hg0 hwf0 hbs hnk.2
    rw [incremental_of_mergeLoop ext builder pr hge hpe hne st hloop]
  · intro done k v rest hsplit
    have hmem : ∀ p ∈ done, p.2.RuleName = p.1 := by
      intro p hp
      exact hnk.2 p (by rw [hsplit]; exact List.mem_append_left _ hp)
    have hkv : v.RuleName = k :=
      hnk.2 (k, v) (by rw [hsplit]; exact List.mem_append_right _ (List.mem_cons_self _ _))
    obtain ⟨st, hloop, hgs, hwfs⟩ := mergeLoop_inRange ext builder.Dc done
      (mergeStart builder) hg0 hwf0 hbs hmem
    refine ⟨st, hloop, fun vm hvm => ?_, ?_⟩
    · obtain ⟨i, -, -, hidx, hlt⟩ := index_of_good hgs k vm hvm
      have hidx' : GoMap.lookup st.Kc.SortRulesIndexMap v.RuleName = some i := by
        rw [hkv]
        exact hidx
      rw [hidx', Option.getD_some]
      have hlen := Slice.length_toList st.newSortRules hwfs.1
      simp only [MergeState.view] at hlt
      omega
    · obtain ⟨st', hstep, -, -⟩ := mergeStep_isSome_inRange ext builder.Dc st k v hgs hwfs hbs hkv
      exact ⟨st', hstep⟩

/-- C16 at `[A(10), B(5), C(5)]`, updated with the new rule D(7), then B
changed to salience 20, then C unchanged. -/
theorem C16_index_safety_witness :
    (BuildRuleWithIncremental refExtern builderABC
      { parseABC with RuleEntities :=
          [("D", mkRule "D" 7 4), ("B", mkRule "B" 20 5), ("C", mkRule "C" 5 6)] }).2 = Ret.nil ∧
    ∀ done k v rest,
      [("D", mkRule "D" 7 4), ("B", mkRule "B" 20 5), ("C", mkRule "C" 5 6)] =
        done ++ (k, v) :: rest →
      ∃ st, mergeLoop refExtern builderABC.Dc (mergeStart builderABC) done = Except.ok st ∧
        (∀ vm, GoMap.lookup st.newRuleEntities k = some vm →
          (GoMap.lookup st.Kc.SortRulesIndexMap v.RuleName).getD 0 < st.newSortRules.len) ∧
        ∃ st', mergeStep refExtern builderABC.Dc st k v = some st' :=
  C16_index_safety refExtern builderABC
    { parseABC with RuleEntities :=
        [("D", mkRule "D" 7 4), ("B", mkRule "B" 20 5), ("C", mkRule "C" 5 6)] }
    (by decide) (by decide) scanSearch_inRange rfl rfl (by decide) (by decide)

/-- C18: idempotence of the incremental update.  For a published context that
satisfies the invariant, a search whose derived position is a valid insertion
point and a non-empty parse result without errors, the update returns `nil`,
and applying it a second time with the same parse result returns `nil` and
leaves the builder as the first application published it: the same registry,
the same `SortRules` sequence and the same `SortRulesIndexMap`. -/
theorem C18_incremental_idempotent (ext : Extern) (builder : RuleBuilder) (pr : ParseResult)
    (hinv : KcInv builder.Kc) (hwf : KcWf builder.Kc) (hbs : ValidSearch ext.BinarySearch)
    (hge : pr.GrammarErrors = []) (hpe : pr.ParseErrors = []) (hne : pr.RuleEntities ≠ [])
    (hnk : NameKeyed pr.RuleEntities) :
    (BuildRuleWithIncremental ext builder pr).2 = Ret.nil ∧
    BuildRuleWithIncremental ext (BuildRuleWithIncremental ext builder pr).1 pr =
      ((BuildRuleWithIncremental ext builder pr).1, Ret.nil) := by
  have hg := Good.ofInv hinv hwf
  obtain ⟨kc', hkc⟩ := listLoop_isSome ext builder.Dc pr.RuleEntities builder.Kc hg
    hinv.2.2.1 hbs hnk.2
  have hg' := listLoop_good ext builder.Dc pr.RuleEntities builder.Kc kc' hg hnk.2 hkc
  have hreg := listLoop_reg ext builder.Dc pr.RuleEntities builder.Kc kc' hnk.1 hkc
  rw [(incremental_eq ext builder pr hge hpe hne hg.regKeys).1 kc' hkc]
  refine ⟨rfl, ?_⟩
  have hall : ∀ p ∈ pr.RuleEntities,
      GoMap.lookup kc'.RuleEntities p.1 = some (Initialize p.2 builder.Dc) := by
    intro p hp
    have hmem : p.1 ∈ GoMap.keys pr.RuleEntities := List.mem_map_of_mem Prod.fst hp
    rw [hreg p.1, if_pos hmem, lookup_of_nameKeyed _ hnk.1 p hp]
    rfl
  have hidem := listLoop_idem ext builder.Dc pr.RuleEntities kc' hg' hnk.2 hall
  exact (incremental_eq ext { builder with Kc := kc' } pr hge hpe hne hg'.regKeys).1 kc' hidem

/-- C18 at `[A(10), B(5), C(5)]`, updated twice with the new rule D(7), B
changed to salience 20 and C unchanged. -/
theorem C18_incremental_idempotent_witness :
    (BuildRuleWithIncremental refExtern builderABC
      { parseABC with RuleEntities :=
          [("D", mkRule "D" 7 4), ("B", mkRule "B" 20 5), ("C", mkRule "C" 5 6)] }).2 = Ret.nil ∧
    BuildRuleWithIncremental refExtern
        (BuildRuleWithIncremental refExtern builderABC
          { parseABC with RuleEntities :=
              [("D", mkRule "D" 7 4), ("B", mkRule "B" 20 5), ("C", mkRule "C" 5 6)] }).1
        { parseABC with RuleEntities :=
            [("D", mkRule "D" 7 4), ("B", mkRule "B" 20 5), ("C", mkRule "C" 5 6)] } =
      ((BuildRuleWithIncremental refExtern builderABC
          { parseABC with RuleEntities :=
              [("D", mkRule "D" 7 4), ("B", mkRule "B" 20 5), ("C", mkRule "C" 5 6)] }).1,
        Ret.nil) :=
  C18_incremental_idempotent refExtern builderABC
    { parseABC with RuleEntities :=
        [("D", mkRule "D" 7 4), ("B", mkRule "B" 20 5), ("C", mkRule "C" 5 6)] }
    (by decide) (by decide) scanSearch_valid rfl rfl (by decide) (by decide)

/-- C17: the incremental update agrees with the full rebuild.  For a non-empty
parse result without errors whose entities have pairwise distinct saliences, a
search whose derived position is a valid insertion point, and any two orders
`enum₁`, `enum₂` in which the entity map is enumerated, `BuildRuleWithIncremental`
on a freshly constructed builder and `BuildRuleFromString` both return `nil` and
publish the same `SortRules`, the same `SortRulesIndexMap` and the same registry
(the same entity under every name; the same map outright when the two orders
coincide).  In particular the result of the merge does not depend on the order
in which the new entities are merged. -/
theorem C17_incremental_agrees_with_full (ext : Extern) (b : RuleBuilder) (pr : ParseResult)
    (enum₁ enum₂ : GoMap RuleEntity) (hbs : ValidSearch ext.BinarySearch)
    (hge : pr.GrammarErrors = []) (hpe : pr.ParseErrors = []) (hne : pr.RuleEntities ≠ [])
    (hkeys : (GoMap.keys pr.RuleEntities).Nodup)
    (hsal : (pr.RuleEntities.map (fun p => p.2.Salience)).Nodup)
    (h₁ : enum₁.Perm pr.RuleEntities) (h₂ : enum₂.Perm pr.RuleEntities) :
    (BuildRuleWithIncremental ext (NewRuleBuilder b.Dc) { pr with RuleEntities := enum₁ }).2
      = Ret.nil ∧
    (BuildRuleFromString ext b { pr with RuleEntities := enum₂ }).2 = Ret.nil ∧
    (BuildRuleWithIncremental ext (NewRuleBuilder b.Dc)
        { pr with RuleEntities := enum₁ }).1.Kc.SortRules =
      (BuildRuleFromString ext b { pr with RuleEntities := enum₂ }).1.Kc.SortRules ∧
    (BuildRuleWithIncremental ext (NewRuleBuilder b.Dc)
        { pr with RuleEntities := enum₁ }).1.Kc.SortRulesIndexMap =
      (BuildRuleFromString ext b { pr with RuleEntities := enum₂ }).1.Kc.SortRulesIndexMap ∧
    (∀ n, GoMap.lookup (BuildRuleWithIncremental ext (NewRuleBuilder b.Dc)
        { pr with RuleEntities := enum₁ }).1.Kc.RuleEntities n =
      GoMap.lookup (BuildRuleFromString ext b
        { pr with RuleEntities := enum₂ }).1.Kc.RuleEntities n) ∧
    (enum₁ = enum₂ →
      (BuildRuleWithIncremental ext (NewRuleBuilder b.Dc)
        { pr with RuleEntities := enum₁ }).1.Kc =
      (BuildRuleFromString ext b { pr with RuleEntities := enum₂ }).1.Kc) := by
  have hk₁ : (GoMap.keys enum₁).Nodup := ((h₁.map Prod.fst).nodup_iff).2 hkeys
  have hne₁ : enum₁ ≠ [] := by
    rintro rfl
    exact hne (List.perm_nil.1 h₁.symm)
  obtain ⟨kc', hloop, hR, hL, hS, hI⟩ := listLoop_all_new ext b.Dc enum₁ NewKnowledgeContext
    hk₁ (fun k _ => rfl) List.Pairwise.nil hbs
  have hinc := (incremental_eq ext (NewRuleBuilder b.Dc) { pr with RuleEntities := enum₁ }
    hge hpe hne₁ List.nodup_nil).1 kc' hloop
  simp only [NewKnowledgeContext, List.nil_append] at hR hL
  have hperm : kc'.SortRules.Perm (fullOrdering (initialized b.Dc enum₂)) := by
    refine hL.trans (List.Perm.trans ?_ (fullOrdering_perm _).symm)
    exact ((h₁.trans h₂.symm).map _).map _
  have hnodup : ((fullOrdering (initialized b.Dc enum₂)).map RuleEntity.Salience).Nodup := by
    rw [(((fullOrdering_perm (initialized b.Dc enum₂)).map RuleEntity.Salience)).nodup_iff]
    have : ((initialized b.Dc enum₂).map Prod.snd).map RuleEntity.Salience =
        enum₂.map (fun p => p.2.Salience) := by
      simp [initialized, Initialize, Function.comp_def]
    rw [this, ((h₂.map _).nodup_iff)]
    exact hsal
  have hLeq := sorted_perm_unique _ _ hperm hS (fullOrdering_sorted _) hnodup
  rw [hinc, fromString_eq ext b { pr with RuleEntities := enum₂ } hge hpe]
  simp only [NewRuleBuilder]
  refine ⟨trivial, trivial, hLeq, ?_, fun n => ?_, fun he => ?_⟩
  · rw [hI hne₁, hLeq]
  · rw [hR]
    have hpi : (initialized b.Dc enum₁).Perm (initialized b.Dc enum₂) :=
      (h₁.trans h₂.symm).map _
    refine lookup_perm (initialized b.Dc enum₁) (initialized b.Dc enum₂) hpi ?_ n
    rw [initialized_keys]
    exact hk₁
  · subst he
    have hIeq := hI hne₁
    rw [hLeq] at hIeq
    cases kc'
    simp only at hR hLeq hIeq
    rw [hR, hLeq, hIeq]

/-- C17 at the rules A(10), D(7), B(5), merged in the order B, A, D and built
from the enumeration D, B, A. -/
theorem C17_incremental_agrees_with_full_witness :
    (BuildRuleWithIncremental refExtern (NewRuleBuilder builderABC.Dc)
      { parseABC with RuleEntities :=
          [("B", mkRule "B" 5 2), ("A", mkRule "A" 10 1), ("D", mkRule "D" 7 4)] }).1.Kc.SortRules =
      (BuildRuleFromString refExtern builderABC
        { parseABC with RuleEntities :=
            [("D", mkRule "D" 7 4), ("B", mkRule "B" 5 2), ("A", mkRule "A" 10 1)] }).1.Kc.SortRules ∧
    (BuildRuleWithIncremental refExtern (NewRuleBuilder builderABC.Dc)
      { parseABC with RuleEntities :=
          [("B", mkRule "B" 5 2), ("A", mkRule "A" 10 1), ("D", mkRule "D" 7 4)] }).1.Kc.SortRulesIndexMap =
      [("A", 0), ("D", 1), ("B", 2)] :=
  ⟨(C17_incremental_agrees_with_full refExtern builderABC
      { parseABC with RuleEntities :=
          [("A", mkRule "A" 10 1), ("D", mkRule "D" 7 4), ("B", mkRule "B" 5 2)] }
      [("B", mkRule "B" 5 2), ("A", mkRule "A" 10 1), ("D", mkRule "D" 7 4)]
      [("D", mkRule "D" 7 4), ("B", mkRule "B" 5 2), ("A", mkRule "A" 10 1)]
      scanSearch_valid rfl rfl (by decide) (by decide) (by decide) (by decide)
      (by decide)).2.2.1,
    by decide⟩

/-- C12: the ordering of a full build is the stable descending sort.  For every
parse result without errors, whose list of entities is the order in which the
entity map is enumerated, the published `SortRules` is the stable sort of the
(initialised) enumeration sequence by descending salience: a permutation of it,
sorted by non-increasing salience, in which the entities of every salience keep
their enumeration order; and it is the only such sequence. -/
theorem C12_full_build_stable_sort (ext : Extern) (builder : RuleBuilder) (pr : ParseResult)
    (hge : pr.GrammarErrors = []) (hpe : pr.ParseErrors = []) :
    IsStableSortDesc ((initialized builder.Dc pr.RuleEntities).map Prod.snd)
      (BuildRuleFromString ext builder pr).1.Kc.SortRules ∧
    ∀ out, IsStableSortDesc ((initialized builder.Dc pr.RuleEntities).map Prod.snd) out →
      out = (BuildRuleFromString ext builder pr).1.Kc.SortRules := by
  rw [fromString_eq ext builder pr hge hpe]
  simp only
  have hst := fullOrdering_stable (initialized builder.Dc pr.RuleEntities)
  refine ⟨hst, fun out hout => ?_⟩
  exact stable_unique out _ hout.2.1 hst.2.1 (fun s => (hout.2.2 s).trans (hst.2.2 s).symm)

/-- C12 at the rules A(10), B(5), C(5): enumerated as C, A, B the build
publishes the stable sort; over all enumeration orders it publishes the
ordering `[A, B, C]` with the index `{A:0, B:1, C:2}` or the ordering
`[A, C, B]` with the index `{A:0, C:1, B:2}`, nothing else, and both occur. -/
theorem C12_full_build_stable_sort_witness :
    (IsStableSortDesc ((initialized builderABC.Dc
        [("C", mkRule "C" 5 3), ("A", mkRule "A" 10 1), ("B", mkRule "B" 5 2)]).map Prod.snd)
      (BuildRuleFromString refExtern builderABC
        { parseABC with RuleEntities :=
            [("C", mkRule "C" 5 3), ("A", mkRule "A" 10 1), ("B", mkRule "B" 5 2)] }).1.Kc.SortRules ∧
    ∀ out, IsStableSortDesc ((initialized builderABC.Dc
        [("C", mkRule "C" 5 3), ("A", mkRule "A" 10 1), ("B", mkRule "B" 5 2)]).map Prod.snd) out →
      out = (BuildRuleFromString refExtern builderABC
        { parseABC with RuleEntities :=
            [("C", mkRule "C" 5 3), ("A", mkRule "A" 10 1), ("B", mkRule "B" 5 2)] }).1.Kc.SortRules) ∧
    (∀ enum : GoMap RuleEntity, enum.Perm parseABC.RuleEntities →
      ((BuildRuleFromString refExtern builderABC
          { parseABC with RuleEntities := enum }).1.Kc.SortRules.map RuleEntity.RuleName =
          ["A", "B", "C"] ∧
        (BuildRuleFromString refExtern builderABC
          { parseABC with RuleEntities := enum }).1.Kc.SortRulesIndexMap =
          [("A", 0), ("B", 1), ("C", 2)]) ∨
      ((BuildRuleFromString refExtern builderABC
          { parseABC with RuleEntities := enum }).1.Kc.SortRules.map RuleEntity.RuleName =
          ["A", "C", "B"] ∧
        (BuildRuleFromString refExtern builderABC
          { parseABC with RuleEntities := enum }).1.Kc.SortRulesIndexMap =
          [("A", 0), ("C", 1), ("B", 2)])) ∧
    (BuildRuleFromString refExtern builderABC parseABC).1.Kc.SortRules.map RuleEntity.RuleName =
      ["A", "B", "C"] ∧
    (BuildRuleFromString refExtern builderABC
      { parseABC with RuleEntities :=
          [("C", mkRule "C" 5 3), ("A", mkRule "A" 10 1), ("B", mkRule "B" 5 2)] }).1.Kc.SortRules.map
        RuleEntity.RuleName = ["A", "C", "B"] :=
  ⟨C12_full_build_stable_sort refExtern builderABC
      { parseABC with RuleEntities :=
          [("C", mkRule "C" 5 3), ("A", mkRule "A" 10 1), ("B", mkRule "B" 5 2)] } rfl rfl,
    fun enum h => fullBuild_ABC_orders enum (List.mem_permutations'.2 h),
    by decide, by decide⟩

end Gengine
